import Mathlib

/-!
# Verification of the SharpETF optimization & risk analytics engine

Shallow embedding of the numeric core of the SharpETF repository
(`src/portfolio_optimizer_scipy.py`, `src/portfolio_optimizer.py`,
`src/simple_enhanced_optimizer.py`, `src/risk_manager.py`,
`src/evaluator.py`, `src/rebalancing_engine.py`,
`src/enhanced_portfolio_optimizer.py`).

Modelling conventions:
* numpy double arithmetic is idealized as exact real arithmetic extended
  with the IEEE special values NaN, +inf and -inf (type `FV` below);
  rounding and overflow are not modelled, and negative zero is identified
  with zero.  Code paths that can only produce finite values are modelled
  directly over `ℝ` (or `ℚ` where no square root occurs, so that
  witnesses evaluate by `decide`).
* calls into `scipy.optimize.minimize` (an external library, not part of
  this repository) are modelled by an oracle argument giving the
  solver's outcome: `none` models "raised an exception or returned
  success=False" wherever the surrounding code treats those two alike,
  and `some w` models a successful solve returning the weight vector
  `w`.  scipy is deterministic on identical inputs, so an oracle is a
  function of the solver's inputs where that matters.
* `pandas.Series`/1-D `numpy` arrays are `List` values; a DataFrame of
  returns is a list of its columns; a covariance matrix is a list of its
  rows.
-/

/-- IEEE-style double value: a finite real, NaN, or a signed infinity.
(Exact reals: no rounding, no overflow, no signed zero.) -/
inductive FV where
  | nan : FV
  | inf : FV
  | ninf : FV
  | num : ℝ → FV

namespace FV

/-- IEEE negation. -/
def neg : FV → FV
  | nan => nan
  | inf => ninf
  | ninf => inf
  | num a => num (-a)

/-- IEEE addition (on exact reals extended with specials). -/
def add : FV → FV → FV
  | nan, _ => nan
  | _, nan => nan
  | inf, ninf => nan
  | ninf, inf => nan
  | inf, _ => inf
  | _, inf => inf
  | ninf, _ => ninf
  | _, ninf => ninf
  | num a, num b => num (a + b)

/-- IEEE subtraction: `a - b = a + (-b)`. -/
def sub (a b : FV) : FV := add a (neg b)

/-- IEEE multiplication. -/
noncomputable def mul : FV → FV → FV
  | nan, _ => nan
  | _, nan => nan
  | inf, inf => inf
  | inf, ninf => ninf
  | ninf, inf => ninf
  | ninf, ninf => inf
  | inf, num b => if b = 0 then nan else if 0 < b then inf else ninf
  | num a, inf => if a = 0 then nan else if 0 < a then inf else ninf
  | ninf, num b => if b = 0 then nan else if 0 < b then ninf else inf
  | num a, ninf => if a = 0 then nan else if 0 < a then ninf else inf
  | num a, num b => num (a * b)

/-- IEEE division (zero denominators treated as +0). -/
noncomputable def div : FV → FV → FV
  | nan, _ => nan
  | _, nan => nan
  | inf, inf => nan
  | inf, ninf => nan
  | ninf, inf => nan
  | ninf, ninf => nan
  | inf, num b => if b < 0 then ninf else inf
  | ninf, num b => if b < 0 then inf else ninf
  | num _, inf => num 0
  | num _, ninf => num 0
  | num a, num b =>
    if b = 0 then (if a = 0 then nan else if 0 < a then inf else ninf)
    else num (a / b)

/-- IEEE square root (`np.sqrt`): NaN on negative finite input. -/
noncomputable def sqrt : FV → FV
  | nan => nan
  | inf => inf
  | ninf => nan
  | num a => if a < 0 then nan else num (Real.sqrt a)

/-- IEEE `<` comparison: any comparison against NaN is false. -/
def lt : FV → FV → Prop
  | nan, _ => False
  | _, nan => False
  | ninf, ninf => False
  | ninf, _ => True
  | _, ninf => False
  | inf, _ => False
  | num a, num b => a < b
  | _, inf => True

/-- `np.sum` of a 1-D array. -/
def lsum (l : List FV) : FV := l.foldr add (num 0)

/-- `np.dot` of two 1-D arrays: sum of elementwise products. -/
noncomputable def dot (x y : List FV) : FV := lsum (List.zipWith mul x y)

end FV

open scoped Classical

/-! ## Finite-real vector and matrix helpers -/

/-- `np.dot` of two finite 1-D arrays. -/
def dotR (x y : List ℝ) : ℝ := (List.zipWith (· * ·) x y).sum

/-- Matrix–vector product `g @ v` (matrix given as its list of rows). -/
def matVecR (g : List (List ℝ)) (v : List ℝ) : List ℝ :=
  g.map (fun row => dotR row v)

/-- Quadratic form `np.dot(w, np.dot(g, w))` for an FV weight vector and a
finite matrix. -/
noncomputable def quadFormFV (g : List (List ℝ)) (w : List FV) : FV :=
  FV.dot w (g.map (fun row => FV.dot (row.map FV.num) w))

/-- A list-of-rows matrix as a Mathlib square matrix (missing entries 0). -/
def toMat (g : List (List ℝ)) : Matrix (Fin g.length) (Fin g.length) ℝ :=
  fun i j => (g.getD (i : ℕ) []).getD (j : ℕ) 0

/-- `np.linalg.inv`: the exact inverse of a square invertible matrix,
failure (`LinAlgError`) otherwise. -/
noncomputable def listMatInv (g : List (List ℝ)) : Option (List (List ℝ)) :=
  if (∀ r ∈ g, r.length = g.length) ∧ (toMat g).det ≠ 0 then
    some (List.ofFn fun i : Fin g.length =>
      List.ofFn fun j : Fin g.length => (toMat g)⁻¹ i j)
  else none

/-! ## Core Optimizer (`src/portfolio_optimizer_scipy.py`,
`PortfolioOptimizerScipy`; `_solve_with_alternative_method` is verbatim
identical in `src/portfolio_optimizer.py`, `PortfolioOptimizer`) -/

namespace OptimizerScipy

/-- Equal-weight vector `np.ones(n) / n`. -/
noncomputable def equalWeights (n : ℕ) : List FV :=
  List.replicate n (FV.num ((n : ℝ)⁻¹))

/-- The realized Sharpe ratio `(w·mu - rf) / sqrt(wᵀ cov w)` of a weight
vector, exactly as `_solve_with_alternative_method` computes it. -/
noncomputable def sharpeOf (rf : ℝ) (mu : List ℝ) (cov : List (List ℝ))
    (w : List FV) : FV :=
  FV.div (FV.sub (FV.dot w (mu.map FV.num)) (FV.num rf))
    (FV.sqrt (quadFormFV cov w))

/-- `w_unconstrained = inv_cov @ (annual_mean.values - self.risk_free_rate)`. -/
def tangencyRaw (rf : ℝ) (mu : List ℝ) (invCov : List (List ℝ)) : List ℝ :=
  matVecR invCov (mu.map (fun x => x - rf))

/-- `w_unconstrained = w_unconstrained / np.sum(w_unconstrained)`: the
division is performed before any sign handling, so a zero sum produces
IEEE specials. -/
noncomputable def normalizedCandidate (v : List ℝ) : List FV :=
  v.map (fun x => FV.div (FV.num x) (FV.num v.sum))

/-- `w_unconstrained[w_unconstrained < 0] = 0`. -/
noncomputable def clippedCandidate (v : List ℝ) : List FV :=
  (normalizedCandidate v).map
    (fun x => if FV.lt x (FV.num 0) then FV.num 0 else x)

/-- `if np.sum(w_unconstrained) > 0: renormalize else: equal_weights`. -/
noncomputable def fallbackCandidate (v : List ℝ) (n : ℕ) : List FV :=
  if FV.lt (FV.num 0) (FV.lsum (clippedCandidate v))
  then (clippedCandidate v).map
    (fun x => FV.div x (FV.lsum (clippedCandidate v)))
  else equalWeights n

/-- `_solve_with_alternative_method`: compares the equal-weight portfolio
with the analytic candidate `inv(cov) @ (mu - rf)`, which the code first
normalizes by its (sign-unrestricted) sum, then clips at zero, then
renormalizes; any exception inside the `try` (matrix inversion failure)
yields the equal-weight result. -/
noncomputable def solveWithAlternativeMethod (rf : ℝ) (mu : List ℝ)
    (cov : List (List ℝ)) : List FV × FV :=
  let equal := equalWeights mu.length
  let sharpeEqual := sharpeOf rf mu cov equal
  match listMatInv cov with
  | none => (equal, sharpeEqual)
  | some invCov =>
    let w := fallbackCandidate (tangencyRaw rf mu invCov) mu.length
    let sharpeUncon := sharpeOf rf mu cov w
    if FV.lt sharpeEqual sharpeUncon then (w, sharpeUncon)
    else (equal, sharpeEqual)

/-- The Sharpe ratio `maximize_sharpe_ratio` computes from the primary
solver's weights (finite reals delivered by scipy). -/
noncomputable def primarySharpe (rf : ℝ) (mu : List ℝ) (cov : List (List ℝ))
    (w : List ℝ) : FV :=
  FV.div (FV.sub (FV.num (dotR w mu)) (FV.num rf))
    (FV.sqrt (FV.num (dotR w (matVecR cov w))))

/-- `PortfolioOptimizerScipy.maximize_sharpe_ratio`.  The scipy SLSQP call
is the `solver` oracle: `some w` is a successful solve returning weights
`w`, `none` a failure (exception raised, or success=False which the code
turns into a `ValueError`).  Both the failure `ValueError` and the
`ValueError` raised by `_validate_optimization_result` on a NaN Sharpe are
caught by the method's own `except`, which falls back to
`_solve_with_alternative_method`; input-validation errors are raised to
the caller. -/
noncomputable def maximizeSharpeRatio (rf : ℝ) (mu : List ℝ)
    (cov : List (List ℝ)) (solver : Option (List ℝ)) :
    Except String (List FV × FV) :=
  if mu.length = 0 then .error "empty mean vector"
  else if cov.length = 0 then .error "empty covariance matrix"
  else if mu.length ≠ cov.length then .error "dimension mismatch"
  else
    match solver with
    | none => .ok (solveWithAlternativeMethod rf mu cov)
    | some w =>
      let s := primarySharpe rf mu cov w
      if s = FV.nan then .ok (solveWithAlternativeMethod rf mu cov)
      else .ok (w.map FV.num, s)

/-- `np.linspace a b k` with the endpoint included. -/
noncomputable def linspace (a b : ℝ) (k : ℕ) : List ℝ :=
  if k = 0 then []
  else if k = 1 then [a]
  else List.ofFn (fun i : Fin k => a + (i : ℕ) * (b - a) / ((k : ℝ) - 1))

/-- `pandas.Series.min` on a non-empty series (junk value 0 on empty). -/
def seriesMin (l : List ℝ) : ℝ := match l with | [] => 0 | x :: xs => xs.foldl min x

/-- `pandas.Series.max` on a non-empty series (junk value 0 on empty). -/
def seriesMax (l : List ℝ) : ℝ := match l with | [] => 0 | x :: xs => xs.foldl max x

/-- `PortfolioOptimizerScipy.calculate_efficient_frontier`: one constrained
minimum-variance solve per target return; `frontier cov t = some r` models
a successful solve with optimal risk `r`, `none` a non-convergent or
raising solve, which the loop skips (`continue`). -/
noncomputable def calculateEfficientFrontier
    (frontier : List (List ℝ) → ℝ → Option ℝ) (mu : List ℝ)
    (cov : List (List ℝ)) (k : ℕ) : List ℝ × List ℝ :=
  (linspace (seriesMin mu) (seriesMax mu) k).foldl
    (fun acc t =>
      match frontier cov t with
      | some r => (acc.1 ++ [r], acc.2 ++ [t])
      | none => acc)
    ([], [])

end OptimizerScipy

/-! ## Claim-side fallback formulations (for comparison with
`_solve_with_alternative_method`; these follow the words of the claim,
not the source) -/

namespace ClaimSide

/-- The claim's branch (a): the analytic tangency direction
`Sigma⁻¹(mu − r_f)`, clipped at zero and renormalized to sum 1 (equal
weights if the clipped vector sums to 0 or the inversion fails). -/
noncomputable def claimTangency (rf : ℝ) (mu : List ℝ)
    (cov : List (List ℝ)) : List FV :=
  match listMatInv cov with
  | none => OptimizerScipy.equalWeights mu.length
  | some invCov =>
    let v := OptimizerScipy.tangencyRaw rf mu invCov
    let c := v.map (fun x => if x < 0 then 0 else x)
    if c.sum = 0 then OptimizerScipy.equalWeights mu.length
    else (c.map (fun x => x / c.sum)).map FV.num

/-- The claim's fallback: return (a) with its Sharpe exactly when that
Sharpe strictly exceeds the equal-weight Sharpe, otherwise the
equal-weight result. -/
noncomputable def claimFallback (rf : ℝ) (mu : List ℝ)
    (cov : List (List ℝ)) : List FV × FV :=
  let a := claimTangency rf mu cov
  let sharpeA := OptimizerScipy.sharpeOf rf mu cov a
  let b := OptimizerScipy.equalWeights mu.length
  let sharpeB := OptimizerScipy.sharpeOf rf mu cov b
  if FV.lt sharpeB sharpeA then (a, sharpeA) else (b, sharpeB)

/-- The amended claim's branch (a'): the analytic tangency direction is
first normalized by its (possibly negative) sum, then clipped at zero and
renormalized; equal weights if the clipped vector's sum is not positive
or the inversion fails. -/
noncomputable def amendedTangency (rf : ℝ) (mu : List ℝ)
    (cov : List (List ℝ)) : List FV :=
  match listMatInv cov with
  | none => OptimizerScipy.equalWeights mu.length
  | some invCov =>
    let v := OptimizerScipy.tangencyRaw rf mu invCov
    let u := v.map (fun x => x / v.sum)
    let c := u.map (fun x => if x < 0 then 0 else x)
    if 0 < c.sum then (c.map (fun x => x / c.sum)).map FV.num
    else OptimizerScipy.equalWeights mu.length

/-- The amended claim's fallback selection. -/
noncomputable def amendedFallback (rf : ℝ) (mu : List ℝ)
    (cov : List (List ℝ)) : List FV × FV :=
  let a := amendedTangency rf mu cov
  let sharpeA := OptimizerScipy.sharpeOf rf mu cov a
  let b := OptimizerScipy.equalWeights mu.length
  let sharpeB := OptimizerScipy.sharpeOf rf mu cov b
  if FV.lt sharpeB sharpeA then (a, sharpeA) else (b, sharpeB)

end ClaimSide

/-! ## Risk Engine (`src/risk_manager.py`, `AdvancedRiskManager`) -/

namespace RiskManager

/-- `np.percentile(a, q)` with the default linear interpolation between
order statistics. -/
def percentile (a : List ℚ) (q : ℚ) : ℚ :=
  let xs := List.insertionSort (· ≤ ·) a
  let h := ((xs.length : ℚ) - 1) * q / 100
  let i := (Int.floor h).toNat
  let lo := xs.getD i 0
  let hi := xs.getD (i + 1) lo
  lo + (h - (i : ℚ)) * (hi - lo)

/-- `AdvancedRiskManager._historical_var`: the `(1-c)·100` percentile of
the return sample. -/
def historicalVar (returns : List ℚ) (c : ℚ) : ℚ :=
  percentile returns ((1 - c) * 100)

/-- `AdvancedRiskManager.calculate_var` with `method='historical'`. -/
def calculateVar (returns : List ℚ) (c : ℚ) : ℚ := historicalVar returns c

/-- `AdvancedRiskManager.calculate_cvar` with `method='historical'`: mean
of the returns at or below the VaR, or the VaR itself if no return is. -/
def calculateCvar (returns : List ℚ) (c : ℚ) : ℚ :=
  let var := calculateVar returns c
  let tail := returns.filter (fun x => x ≤ var)
  if 0 < tail.length then tail.sum / tail.length else var

/-- Result record of `calculate_concentration_risk`. -/
structure ConcentrationRisk where
  top5Concentration : ℚ
  top3Concentration : ℚ
  hhi : ℚ
  effectiveHoldings : ℚ
  maxSingleWeight : ℚ
  minWeight : ℚ
  deriving Repr, DecidableEq

/-- `AdvancedRiskManager.calculate_concentration_risk`. -/
def calculateConcentrationRisk (w : List ℚ) : ConcentrationRisk :=
  let desc := List.insertionSort (· ≥ ·) w
  let sumSq := (w.map (fun x => x ^ 2)).sum
  { top5Concentration := if 5 ≤ w.length then (desc.take 5).sum else w.sum
    top3Concentration := if 3 ≤ w.length then (desc.take 3).sum else w.sum
    hhi := sumSq * 10000
    effectiveHoldings := 1 / sumSq
    maxSingleWeight := desc.headD 0
    minWeight :=
      let pos := w.filter (fun x => 1 / 1000 < x)
      if 0 < pos.length then (List.insertionSort (· ≤ ·) pos).headD 0 else 0 }

end RiskManager

/-! ## Rebalancing Advisor (`src/rebalancing_engine.py`, `RebalancingEngine`) -/

namespace Rebalancing

/-- `np.max` of a list (junk value on empty, where numpy raises). -/
def npMax (l : List ℚ) : ℚ := l.foldr max (l.headD 0)

/-- Constructor parameters of `RebalancingEngine`. -/
structure RebalancingEngine where
  transactionCost : ℚ
  minTradeAmount : ℚ

/-- `RebalancingEngine.threshold_based_rebalancing`: per-instrument
absolute deviations and the flag `max(|cur - tgt|) > threshold`. -/
def thresholdBasedRebalancing (cur tgt : List ℚ) (threshold : ℚ) :
    Bool × List ℚ :=
  let dev := List.zipWith (fun c t => |c - t|) cur tgt
  (decide (threshold < npMax dev), dev)

/-- One entry of the trade dictionary built by
`calculate_rebalancing_trades`. -/
structure Trade where
  idx : ℕ
  weightChange : ℚ
  tradeValue : ℚ
  tradingCost : ℚ
  isBuy : Bool
  deriving Repr, DecidableEq

/-- The `summary` entry of `calculate_rebalancing_trades`. -/
structure TradeSummary where
  totalTradingCost : ℚ
  totalTradingCostPct : ℚ
  totalTurnover : ℚ
  deriving Repr, DecidableEq

/-- `RebalancingEngine.calculate_rebalancing_trades`: one trade per
instrument whose trade value clears the minimum-trade floor, plus the
summary.  (Python iterates `enumerate(weight_changes)`; the model iterates
over indices of the same list.) -/
def calculateRebalancingTrades (e : RebalancingEngine) (cur tgt : List ℚ)
    (value : ℚ) : List Trade × TradeSummary :=
  let changes := List.zipWith (fun t c => t - c) tgt cur
  let trades := (List.range changes.length).filterMap (fun i =>
    if |changes.getD i 0 * value| < e.minTradeAmount then none
    else some ⟨i, changes.getD i 0, changes.getD i 0 * value,
      |changes.getD i 0 * value| * e.transactionCost,
      decide (0 < changes.getD i 0)⟩)
  let totalCost := (trades.map Trade.tradingCost).sum
  (trades,
   { totalTradingCost := totalCost
     totalTradingCostPct := totalCost / value
     totalTurnover := (changes.map (fun d => |d|)).sum / 2 })

end Rebalancing

/-! ## Evaluator (`src/evaluator.py`, `PortfolioEvaluator`) -/

namespace Evaluator

/-- `PortfolioEvaluator._calculate_sharpe_ratio`: explicit zero-volatility
guard returning `float('inf')` / `float('-inf')`, otherwise the finite
quotient.  Modelled on the extended reals. -/
noncomputable def calculateSharpeRatio (riskFreeRate r v : ℝ) : EReal :=
  if v = 0 then (if riskFreeRate < r then (⊤ : EReal) else (⊥ : EReal))
  else (((r - riskFreeRate) / v : ℝ) : EReal)

end Evaluator

/-! ## Signal-Enhanced Optimizer (`src/simple_enhanced_optimizer.py`,
`SimpleEnhancedOptimizer`) -/

namespace SimpleEnhanced

/-- Constructor parameters of `SimpleEnhancedOptimizer`. -/
structure SimpleEnhancedOptimizer where
  riskFreeRate : ℝ
  tradingDays : ℕ

/-- `pandas.Series.mean`. -/
noncomputable def seriesMean (l : List ℝ) : ℝ := l.sum / l.length

/-- `pandas.Series.std` (sample standard deviation, `ddof=1`): NaN when
the series has at most `ddof` entries (pandas returns NaN whenever
`count - ddof ≤ 0`), otherwise the finite sample standard deviation. -/
noncomputable def seriesStd (l : List ℝ) : FV :=
  if l.length ≤ 1 then FV.nan
  else FV.num (Real.sqrt ((l.map (fun x => (x - seriesMean l) ^ 2)).sum /
    ((l.length : ℝ) - 1)))

/-- Sample covariance of two columns (`pandas.DataFrame.cov`, `ddof=1`). -/
noncomputable def sampleCov (x y : List ℝ) : ℝ :=
  (List.zipWith (fun a b => (a - seriesMean x) * (b - seriesMean y)) x y).sum /
    ((x.length : ℝ) - 1)

/-- `returns.mean() * trading_days` over a table given by columns. -/
noncomputable def annualMean (o : SimpleEnhancedOptimizer)
    (cols : List (List ℝ)) : List ℝ :=
  cols.map (fun col => seriesMean col * (o.tradingDays : ℝ))

/-- `returns.cov() * trading_days` as a list of rows. -/
noncomputable def annualCov (o : SimpleEnhancedOptimizer)
    (cols : List (List ℝ)) : List (List ℝ) :=
  cols.map (fun x => cols.map (fun y => sampleCov x y * (o.tradingDays : ℝ)))

/-- `np.diag` of a list-of-rows matrix. -/
def diagOf (g : List (List ℝ)) : List ℝ :=
  (List.range g.length).map (fun i => (g.getD i []).getD i 0)

/-- Metrics bundle built by `_calculate_portfolio_metrics`. -/
structure PortfolioMetrics where
  portfolioReturn : FV
  portfolioVolatility : FV
  sharpeRatio : FV
  concentrationHhi : FV
  effectiveAssets : FV
  diversificationRatio : FV

/-- `SimpleEnhancedOptimizer._calculate_portfolio_metrics` (the expected
returns can carry IEEE specials when they come from the signal path). -/
noncomputable def calculatePortfolioMetrics (o : SimpleEnhancedOptimizer)
    (w : List ℝ) (mu : List FV) (cov : List (List ℝ)) : PortfolioMetrics :=
  let ret := FV.dot (w.map FV.num) mu
  let vol := FV.sqrt (FV.num (dotR w (matVecR cov w)))
  let sumSq := (w.map (fun x => x ^ 2)).sum
  let weightedVol := FV.lsum (List.zipWith
    (fun wi di => FV.mul (FV.num wi) (FV.sqrt (FV.num di))) w (diagOf cov))
  { portfolioReturn := ret
    portfolioVolatility := vol
    sharpeRatio := FV.div (FV.sub ret (FV.num o.riskFreeRate)) vol
    concentrationHhi := FV.num (sumSq * 10000)
    effectiveAssets := FV.div (FV.num 1) (FV.num sumSq)
    diversificationRatio := FV.div weightedVol vol }

/-- `SimpleEnhancedOptimizer._optimize_portfolio`.  The scipy SLSQP call
is the `solver` oracle (a deterministic function of the expected-return
vector — possibly carrying IEEE specials — and the covariance it is
given): `some w` is a successful solve, `none` a failed or raising one,
answered with equal weights. -/
noncomputable def optimizePortfolio (o : SimpleEnhancedOptimizer)
    (solver : List FV → List (List ℝ) → Option (List ℝ))
    (mu : List FV) (cov : List (List ℝ)) : List ℝ × PortfolioMetrics :=
  match solver mu cov with
  | some w => (w, calculatePortfolioMetrics o w mu cov)
  | none =>
    let eq := List.replicate mu.length ((mu.length : ℝ)⁻¹)
    (eq, calculatePortfolioMetrics o eq mu cov)

/-- `SimpleEnhancedOptimizer._traditional_optimization` (its annualized
means are finite for a table of non-empty columns). -/
noncomputable def traditionalOptimization (o : SimpleEnhancedOptimizer)
    (solver : List FV → List (List ℝ) → Option (List ℝ))
    (cols : List (List ℝ)) : List ℝ × PortfolioMetrics :=
  optimizePortfolio o solver ((annualMean o cols).map FV.num)
    (annualCov o cols)

/-- `SimpleEnhancedOptimizer.optimize_with_signals`.  `signals` is the
`'composite_signal'` entry when present (`none` models a missing or empty
signal dict, routed to `_traditional_optimization`).  The signal path
adds `signals['composite_signal'] * base.std() * 0.3` to the annualized
means in float semantics — on a one-instrument table `base.std()` is NaN
and poisons every adjusted mean, even for a zero signal — then floors the
result at `0.01` (`.clip(lower=0.01)`, which leaves NaN untouched) and
re-solves; the weights are returned unchanged (only a `signal_analysis`
entry is added to the metrics dict, not modelled). -/
noncomputable def optimizeWithSignals (o : SimpleEnhancedOptimizer)
    (solver : List FV → List (List ℝ) → Option (List ℝ))
    (cols : List (List ℝ)) (signals : Option (List ℝ)) :
    List ℝ × PortfolioMetrics :=
  match signals with
  | none => traditionalOptimization o solver cols
  | some s =>
    let base := annualMean o cols
    let adj := s.map (fun x =>
      FV.mul (FV.mul (FV.num x) (seriesStd base)) (FV.num (3 / 10)))
    let enhanced := (List.zipWith FV.add (base.map FV.num) adj).map
      (fun x => if FV.lt x (FV.num (1 / 100)) then FV.num (1 / 100) else x)
    optimizePortfolio o solver enhanced (annualCov o cols)

end SimpleEnhanced

/-! ## Enhanced optimizer (`src/enhanced_portfolio_optimizer.py`,
`EnhancedPortfolioOptimizer`) -/

namespace EnhancedOpt

/-- Local names of the objective closure `negative_sharpe_ratio` inside
`_optimize_with_enhanced_inputs` (transcribed from the source). -/
def objectiveLocalNames : List String :=
  ["weights", "portfolio_return", "portfolio_vol", "sharpe_ratio"]

/-- Names bound in the enclosing method scope of that closure. -/
def enclosingMethodNames : List String :=
  ["self", "enhanced_returns", "enhanced_cov", "n", "negative_sharpe_ratio",
   "constraints", "risk_constraint", "concentration_constraint", "bounds",
   "initial_weights", "result", "optimal_weights", "metrics", "e"]

/-- Module-level names of `src/enhanced_portfolio_optimizer.py`. -/
def moduleGlobalNames : List String :=
  ["pd", "np", "minimize", "Dict", "List", "Tuple", "Optional", "Any",
   "logging", "QuantSignals", "PortfolioEvaluator", "logger",
   "EnhancedPortfolioOptimizer"]

/-- Python builtins in scope. -/
def builtinNames : List String :=
  ["len", "max", "min", "abs", "sum", "range", "print", "float", "int",
   "str", "set", "list", "dict", "tuple", "zip", "enumerate", "isinstance",
   "Exception", "ValueError", "ImportError"]

/-- The identifiers the body of `negative_sharpe_ratio` reads: `np`, its
argument `weights`, the enclosing `enhanced_returns` and `self`, and the
name `enhanced` (line 189 of the source: `np.dot(enhanced.values, ...)`). -/
def objectiveFreeNames : List String :=
  ["np", "weights", "enhanced_returns", "enhanced", "self"]

/-- Python resolves a free name of the closure against its locals, the
enclosing scope, module globals and builtins. -/
def resolves (s : String) : Bool :=
  objectiveLocalNames.contains s || enclosingMethodNames.contains s ||
  moduleGlobalNames.contains s || builtinNames.contains s

/-- Evaluating the objective raises `NameError` iff some name it reads
does not resolve.  `scipy.optimize.minimize` evaluates the objective at
the initial point, so a raising objective makes the whole call raise. -/
def objectiveEvalRaises : Bool :=
  objectiveFreeNames.any (fun s => !(resolves s))

/-- Metrics bundle of `_calculate_enhanced_portfolio_metrics`. -/
structure EnhMetrics where
  portfolioReturn : FV
  portfolioVolatility : FV
  sharpeRatio : FV
  enhancedOptimization : Bool
  concentrationHhi : FV
  effectiveAssets : FV
  diversificationRatio : FV

/-- `EnhancedPortfolioOptimizer._calculate_enhanced_portfolio_metrics`. -/
noncomputable def calculateEnhancedPortfolioMetrics (rf : ℝ)
    (w mu : List ℝ) (cov : List (List ℝ)) : EnhMetrics :=
  let ret := dotR w mu
  let vol := FV.sqrt (FV.num (dotR w (matVecR cov w)))
  let sumSq := (w.map (fun x => x ^ 2)).sum
  let weightedVol := FV.lsum (List.zipWith
    (fun wi di => FV.mul (FV.num wi) (FV.sqrt (FV.num di)))
    w (SimpleEnhanced.diagOf cov))
  { portfolioReturn := FV.num ret
    portfolioVolatility := vol
    sharpeRatio := FV.div (FV.sub (FV.num ret) (FV.num rf)) vol
    enhancedOptimization := true
    concentrationHhi := FV.num (sumSq * 10000)
    effectiveAssets := FV.div (FV.num 1) (FV.num sumSq)
    diversificationRatio := FV.div weightedVol vol }

/-- `EnhancedPortfolioOptimizer._calculate_risk_parity_weights`: a scipy
solve of the risk-budget objective; `result.x` on success, the
equal-weight initial guess otherwise.  `rpSolver = none` models
success=False (a raising solve is caught one level up and likewise ends
in equal weights). -/
noncomputable def calculateRiskParityWeights (rpSolver : Option (List ℝ))
    (cov : List (List ℝ)) : List ℝ :=
  match rpSolver with
  | some w => w
  | none => List.replicate cov.length ((cov.length : ℝ)⁻¹)

/-- `EnhancedPortfolioOptimizer._fallback_enhanced_optimization`:
risk-parity weights over the enhanced covariance, equal weights if that
solve fails. -/
noncomputable def fallbackEnhancedOptimization (rf : ℝ)
    (rpSolver : Option (List ℝ)) (mu : List ℝ) (cov : List (List ℝ)) :
    List ℝ × EnhMetrics :=
  let w := calculateRiskParityWeights rpSolver cov
  (w, calculateEnhancedPortfolioMetrics rf w mu cov)

/-- `EnhancedPortfolioOptimizer._optimize_with_enhanced_inputs`.  The
SLSQP call evaluates `negative_sharpe_ratio`; if that raises (it
references the unbound name `enhanced`), the method's `except` routes to
the fallback.  `primarySolver` models the solve outcome in the
(unreachable) case of an evaluable objective. -/
noncomputable def optimizeWithEnhancedInputs (rf : ℝ)
    (primarySolver rpSolver : Option (List ℝ)) (mu : List ℝ)
    (cov : List (List ℝ)) : List ℝ × EnhMetrics :=
  if objectiveEvalRaises then fallbackEnhancedOptimization rf rpSolver mu cov
  else
    match primarySolver with
    | some w => (w, calculateEnhancedPortfolioMetrics rf w mu cov)
    | none => fallbackEnhancedOptimization rf rpSolver mu cov

end EnhancedOpt

/-! ## Lemmas about the float model -/

namespace FV

@[simp] theorem add_nan (a : FV) : add a nan = nan := by cases a <;> rfl

@[simp] theorem nan_add (a : FV) : add nan a = nan := by cases a <;> rfl

@[simp] theorem mul_nan (a : FV) : mul a nan = nan := by cases a <;> rfl

@[simp] theorem nan_mul (a : FV) : mul nan a = nan := by cases a <;> rfl

@[simp] theorem add_num_num (a b : ℝ) : add (num a) (num b) = num (a + b) := rfl

@[simp] theorem mul_num_num (a b : ℝ) : mul (num a) (num b) = num (a * b) := rfl

@[simp] theorem sub_num_num (a b : ℝ) : sub (num a) (num b) = num (a - b) := by
  simp [sub, neg, add, sub_eq_add_neg]

@[simp] theorem num_ne_nan (a : ℝ) : num a ≠ nan := by simp

theorem div_num_num {b : ℝ} (hb : b ≠ 0) (a : ℝ) :
    div (num a) (num b) = num (a / b) := by simp [div, hb]

theorem div_num_zero_pos {a : ℝ} (ha : 0 < a) : div (num a) (num 0) = inf := by
  simp [div, ha.ne', ha]

theorem div_num_zero_neg {a : ℝ} (ha : a < 0) : div (num a) (num 0) = ninf := by
  simp [div, ha.ne, ha, not_lt_of_lt ha]

@[simp] theorem div_zero_zero : div (num 0) (num 0) = nan := by simp [div]

@[simp] theorem div_num_inf (a : ℝ) : div (num a) inf = num 0 := rfl

@[simp] theorem div_inf_inf : div inf inf = nan := rfl

@[simp] theorem nan_div (a : FV) : div nan a = nan := by cases a <;> rfl

@[simp] theorem div_nan (a : FV) : div a nan = nan := by cases a <;> rfl

theorem sqrt_num_of_nonneg {a : ℝ} (ha : 0 ≤ a) :
    sqrt (num a) = num (Real.sqrt a) := by simp [sqrt, not_lt_of_le ha]

theorem sqrt_num_of_neg {a : ℝ} (ha : a < 0) : sqrt (num a) = nan := by
  simp [sqrt, ha]

@[simp] theorem sqrt_nan : sqrt nan = nan := rfl

@[simp] theorem lt_nan (a : FV) : ¬ lt a nan := by cases a <;> simp [lt]

@[simp] theorem nan_lt (a : FV) : ¬ lt nan a := by simp [lt]

theorem lt_irrefl (a : FV) : ¬ lt a a := by cases a <;> simp [lt]

@[simp] theorem lt_num_num (a b : ℝ) : lt (num a) (num b) ↔ a < b := Iff.rfl

@[simp] theorem num_lt_inf (a : ℝ) : lt (num a) inf := by simp [lt]

@[simp] theorem ninf_lt_num (a : ℝ) : lt ninf (num a) := by simp [lt]

@[simp] theorem lsum_nil : lsum [] = num 0 := rfl

@[simp] theorem lsum_cons (a : FV) (l : List FV) :
    lsum (a :: l) = add a (lsum l) := rfl

/-- A sum containing NaN is NaN. -/
theorem lsum_eq_nan_of_mem {l : List FV} (h : nan ∈ l) : lsum l = nan := by
  induction l with
  | nil => cases h
  | cons a t ih =>
    rcases List.mem_cons.mp h with h | h
    · simp [← h]
    · simp [ih h]

/-- `np.sum` of an array of finite values is the finite sum. -/
theorem lsum_map_num (l : List ℝ) : lsum (l.map num) = num l.sum := by
  induction l with
  | nil => rfl
  | cons a t ih => simp [ih]

/-- `np.dot` of finite arrays is the finite dot product. -/
theorem dot_map_num (x y : List ℝ) :
    dot (x.map num) (y.map num) = num (List.zipWith (· * ·) x y).sum := by
  have h : List.zipWith mul (x.map num) (y.map num)
      = (List.zipWith (· * ·) x y).map num := by
    induction x generalizing y with
    | nil => simp
    | cons a t ih => cases y <;> simp [ih]
  rw [dot, h, lsum_map_num]

/-- A sum of values that are each `inf` or finite is `inf` or finite. -/
theorem lsum_inf_or_num (l : List FV)
    (hall : ∀ x ∈ l, x = inf ∨ ∃ a, x = num a) :
    lsum l = inf ∨ ∃ b, lsum l = num b := by
  induction l with
  | nil => exact Or.inr ⟨0, rfl⟩
  | cons c u ihu =>
    have hc := hall c (List.mem_cons_self c u)
    have hu := ihu (fun x hx => hall x (List.mem_cons_of_mem c hx))
    rcases hu with h | ⟨b, hb⟩
    · rcases hc with hc | ⟨a, ha⟩
      · subst hc; simp [h, add]
      · subst ha; simp [h, add]
    · rcases hc with hc | ⟨a, ha⟩
      · subst hc; simp [hb, add]
      · subst ha; exact Or.inr ⟨a + b, by simp [hb]⟩

/-- Every element is `inf` or finite, and at least one is `inf`: then the
sum is `inf`. -/
theorem lsum_eq_inf (l : List FV)
    (hall : ∀ x ∈ l, x = inf ∨ ∃ a, x = num a) (hinf : inf ∈ l) :
    lsum l = inf := by
  induction l with
  | nil => cases hinf
  | cons a t ih =>
    have ht : ∀ x ∈ t, x = inf ∨ ∃ a, x = num a :=
      fun x hx => hall x (List.mem_cons_of_mem a hx)
    rcases List.mem_cons.mp hinf with h | h
    · rcases lsum_inf_or_num t ht with hs | ⟨b, hb⟩
      · simp [← h, hs, add]
      · simp [← h, hb, add]
    · have hts := ih ht h
      rcases hall a (List.mem_cons_self a t) with ha | ⟨c, hc⟩
      · simp [ha, hts, add]
      · simp [hc, hts, add]

end FV

/-! ## Claim theorems -/

/-- C10: the primary constrained solve of
`EnhancedPortfolioOptimizer._optimize_with_enhanced_inputs` never yields
the returned result: its objective references the undefined name
`enhanced`, so evaluating it always raises, the success branch is
unreachable, and for every input and every behaviour of the solver
oracles the method returns exactly the fallback result (risk-parity
weights over the enhanced covariance, or equal weights if that fails). -/
theorem enhanced_primary_branch_unreachable :
    EnhancedOpt.objectiveEvalRaises = true ∧
    ∀ (rf : ℝ) (primarySolver rpSolver : Option (List ℝ)) (mu : List ℝ)
      (cov : List (List ℝ)),
      EnhancedOpt.optimizeWithEnhancedInputs rf primarySolver rpSolver mu cov =
        EnhancedOpt.fallbackEnhancedOptimization rf rpSolver mu cov := by
  refine ⟨by decide, fun rf p rp mu cov => ?_⟩
  simp [EnhancedOpt.optimizeWithEnhancedInputs,
    show EnhancedOpt.objectiveEvalRaises = true by decide]

/-- C9: `calculate_concentration_risk` reports the Herfindahl index
`10000 · Σ wᵢ²` and effective holdings `1 / Σ wᵢ²`; on the two-instrument
vector `[0.5, 0.5]` these are 5000 and 2. -/
theorem concentration_risk_formulas :
    (∀ w : List ℚ, w ≠ [] →
      (RiskManager.calculateConcentrationRisk w).hhi =
          10000 * (w.map (fun x => x ^ 2)).sum ∧
        (RiskManager.calculateConcentrationRisk w).effectiveHoldings =
          1 / (w.map (fun x => x ^ 2)).sum) ∧
    (RiskManager.calculateConcentrationRisk [1/2, 1/2]).hhi = 5000 ∧
    (RiskManager.calculateConcentrationRisk [1/2, 1/2]).effectiveHoldings = 2 := by
  refine ⟨fun w _ => ⟨?_, rfl⟩,
    by norm_num [RiskManager.calculateConcentrationRisk],
    by norm_num [RiskManager.calculateConcentrationRisk]⟩
  simp [RiskManager.calculateConcentrationRisk]; ring

/-- Witness for C9 at `w = [1/2, 1/2]`. -/
theorem concentration_risk_formulas_witness :
    ([(1:ℚ)/2, 1/2] ≠ ([] : List ℚ)) ∧
    (RiskManager.calculateConcentrationRisk [1/2, 1/2]).hhi =
      10000 * (([(1:ℚ)/2, 1/2]).map (fun x => x ^ 2)).sum :=
  ⟨by decide, (concentration_risk_formulas.1 [1/2, 1/2] (by decide)).1⟩

/-- C6: the evaluator's Sharpe computation at zero annual volatility is
`+∞` when the annual return exceeds the risk-free rate and `-∞`
otherwise (the function is total, so no division error is possible), and
at nonzero volatility it is the finite quotient `(r - rf) / v`. -/
theorem evaluator_sharpe_total (rf r v : ℝ) :
    (v = 0 → (rf < r → Evaluator.calculateSharpeRatio rf r v = ⊤) ∧
      (¬ rf < r → Evaluator.calculateSharpeRatio rf r v = ⊥)) ∧
    (v ≠ 0 →
      Evaluator.calculateSharpeRatio rf r v = (((r - rf) / v : ℝ) : EReal)) := by
  constructor
  · intro hv
    constructor <;> intro hr <;> simp [Evaluator.calculateSharpeRatio, hv, hr]
  · intro hv
    simp [Evaluator.calculateSharpeRatio, hv]

/-- Witness for C6 at `rf = 0.02`: `v = 0, r = 1` gives `+∞`;
`v = 2` gives the finite quotient. -/
theorem evaluator_sharpe_total_witness :
    Evaluator.calculateSharpeRatio 0.02 1 0 = ⊤ ∧
    Evaluator.calculateSharpeRatio 0.02 1 2 = (((1 - 0.02) / 2 : ℝ) : EReal) :=
  ⟨((evaluator_sharpe_total 0.02 1 0).1 rfl).1 (by norm_num),
   (evaluator_sharpe_total 0.02 1 2).2 (by norm_num)⟩

section RebalancingLemmas

theorem le_foldr_max {l : List ℚ} {x : ℚ} (d : ℚ) (hx : x ∈ l) :
    x ≤ l.foldr max d := by
  induction l with
  | nil => cases hx
  | cons a t ih =>
    rw [List.foldr_cons]
    rcases List.mem_cons.mp hx with h | h
    · rw [h]; exact le_max_left a _
    · exact le_trans (ih h) (le_max_right _ _)

theorem foldr_max_mem_or (d : ℚ) (l : List ℚ) :
    l.foldr max d ∈ l ∨ l.foldr max d = d := by
  induction l with
  | nil => exact Or.inr rfl
  | cons a t ih =>
    rw [List.foldr_cons]
    rcases max_choice a (t.foldr max d) with h | h
    · rw [h]; exact Or.inl (List.mem_cons_self a t)
    · rw [h]
      rcases ih with h2 | h2
      · exact Or.inl (List.mem_cons_of_mem a h2)
      · exact Or.inr h2

/-- `np.max` strictly exceeds `q` iff some element does (non-empty list). -/
theorem npMax_lt_iff {l : List ℚ} (hne : l ≠ []) (q : ℚ) :
    q < Rebalancing.npMax l ↔ ∃ x ∈ l, q < x := by
  constructor
  · intro h
    rcases foldr_max_mem_or (l.headD 0) l with hm | hm
    · exact ⟨Rebalancing.npMax l, hm, h⟩
    · refine ⟨l.headD 0, ?_, by rwa [Rebalancing.npMax, hm] at h⟩
      cases l with
      | nil => exact absurd rfl hne
      | cons a t => exact List.mem_cons_self a t
  · rintro ⟨x, hx, hqx⟩
    exact lt_of_lt_of_le hqx (le_foldr_max _ hx)

/-- Mapping over a `zipWith` of equal-length lists, written by index. -/
theorem map_zipWith_eq_range {α : Type} (g : α → ℚ) (f : ℚ → ℚ → α)
    (a b : List ℚ) (h : b.length = a.length) :
    (List.zipWith f a b).map g =
      (List.range a.length).map (fun i => g (f (a.getD i 0) (b.getD i 0))) := by
  apply List.ext_getElem
  · simp [List.length_zipWith, h]
  · intro i h1 h2
    have hi : i < a.length := by simpa [List.length_zipWith, h] using h1
    have hib : i < b.length := by omega
    simp only [List.getElem_map, List.getElem_zipWith, List.getElem_range]
    rw [List.getD_eq_getElem a 0 hi, List.getD_eq_getElem b 0 hib]

end RebalancingLemmas

/-- C8: for same-length current and target weight vectors (of at least
one instrument), any threshold and any portfolio value: the
`needs_rebalance` flag holds iff the largest absolute per-instrument
deviation strictly exceeds the threshold; a trade entry (with its cost)
exists for instrument `i` iff its absolute trade value reaches the
minimum-trade floor; and the reported turnover is half the sum of the
absolute weight deltas. -/
theorem rebalancing_trades_contract (e : Rebalancing.RebalancingEngine)
    (cur tgt : List ℚ) (threshold value : ℚ)
    (hlen : cur.length = tgt.length) (hne : cur ≠ []) :
    ((Rebalancing.thresholdBasedRebalancing cur tgt threshold).1 = true ↔
      ∃ i < cur.length, threshold < |cur.getD i 0 - tgt.getD i 0|) ∧
    (∀ i < cur.length,
      ((∃ tr ∈ (Rebalancing.calculateRebalancingTrades e cur tgt value).1,
          tr.idx = i) ↔
        e.minTradeAmount ≤ |(tgt.getD i 0 - cur.getD i 0) * value|)) ∧
    (Rebalancing.calculateRebalancingTrades e cur tgt value).2.totalTurnover =
      ((List.range cur.length).map
        (fun i => |tgt.getD i 0 - cur.getD i 0|)).sum / 2 := by
  have hclen : (List.zipWith (fun t c => t - c) tgt cur).length = cur.length := by
    simp [List.length_zipWith, hlen]
  refine ⟨?_, ?_, ?_⟩
  · -- threshold flag
    have hdev : (List.zipWith (fun c t => |c - t|) cur tgt) ≠ [] := by
      have : (List.zipWith (fun c t : ℚ => |c - t|) cur tgt).length = cur.length := by
        simp [List.length_zipWith, hlen]
      intro hcontra
      rw [hcontra] at this
      cases cur with
      | nil => exact absurd rfl hne
      | cons a t => simp at this
    rw [Rebalancing.thresholdBasedRebalancing]
    simp only [decide_eq_true_eq]
    rw [npMax_lt_iff hdev]
    constructor
    · rintro ⟨x, hx, hqx⟩
      rcases List.mem_iff_getElem.mp hx with ⟨i, hilt, hieq⟩
      have hi : i < cur.length := by
        simpa [List.length_zipWith, hlen] using hilt
      have hit : i < tgt.length := by omega
      refine ⟨i, hi, ?_⟩
      rw [List.getD_eq_getElem cur 0 hi, List.getD_eq_getElem tgt 0 hit]
      rw [List.getElem_zipWith] at hieq
      rwa [← hieq] at hqx
    · rintro ⟨i, hi, hq⟩
      have hit : i < tgt.length := by omega
      have hiz : i < (List.zipWith (fun c t : ℚ => |c - t|) cur tgt).length := by
        simp [List.length_zipWith, hlen]; omega
      refine ⟨|cur[i] - tgt[i]|, ?_, ?_⟩
      · have hmem := List.getElem_mem hiz
        rwa [List.getElem_zipWith] at hmem
      · rwa [List.getD_eq_getElem cur 0 hi, List.getD_eq_getElem tgt 0 hit] at hq
  · -- trade-entry membership
    intro i hi
    have hit : i < tgt.length := by omega
    have hchg : (List.zipWith (fun t c => t - c) tgt cur).getD i 0 =
        tgt.getD i 0 - cur.getD i 0 := by
      have hiz : i < (List.zipWith (fun t c : ℚ => t - c) tgt cur).length := by
        rw [hclen]; exact hi
      rw [List.getD_eq_getElem _ 0 hiz, List.getElem_zipWith,
        List.getD_eq_getElem tgt 0 hit, List.getD_eq_getElem cur 0 hi]
    constructor
    · rintro ⟨tr, htr, hidx⟩
      rw [Rebalancing.calculateRebalancingTrades] at htr
      simp only [List.mem_filterMap, List.mem_range] at htr
      rcases htr with ⟨j, hj, hfj⟩
      by_cases hcase :
          |(List.zipWith (fun t c => t - c) tgt cur).getD j 0 * value| <
            e.minTradeAmount
      · rw [if_pos hcase] at hfj
        exact absurd hfj (by simp)
      · rw [if_neg hcase] at hfj
        have heq := Option.some.inj hfj
        rw [← heq] at hidx
        simp only [] at hidx
        subst hidx
        rw [hchg] at hcase
        exact not_lt.mp hcase
    · intro hge
      rw [Rebalancing.calculateRebalancingTrades]
      simp only [List.mem_filterMap, List.mem_range]
      have hcase : ¬ |(List.zipWith (fun t c => t - c) tgt cur).getD i 0 * value| <
          e.minTradeAmount := by
        rw [hchg]; exact not_lt.mpr hge
      exact ⟨_, ⟨i, by rw [hclen]; exact hi, by rw [if_neg hcase]⟩, rfl⟩
  · -- turnover
    rw [Rebalancing.calculateRebalancingTrades]
    have := map_zipWith_eq_range (fun d : ℚ => |d|) (fun t c => t - c) tgt cur
      (by omega)
    simp only []
    rw [this, hlen]

/-- Witness for C8 at a concrete two-instrument rebalance. -/
theorem rebalancing_trades_contract_witness :
    ([(1:ℚ)/2, 1/2].length = [(7:ℚ)/10, 3/10].length) ∧
    ([(1:ℚ)/2, 1/2] ≠ ([] : List ℚ)) ∧
    (Rebalancing.calculateRebalancingTrades ⟨1/1000, 1000⟩ [1/2, 1/2]
        [7/10, 3/10] 10000).2.totalTurnover =
      ((List.range ([(1:ℚ)/2, 1/2]).length).map
        (fun i => |([(7:ℚ)/10, 3/10]).getD i 0 -
          ([(1:ℚ)/2, 1/2]).getD i 0|)).sum / 2 :=
  ⟨by decide, by decide,
   (rebalancing_trades_contract ⟨1/1000, 1000⟩ [1/2, 1/2] [7/10, 3/10] (1/20)
     10000 (by decide) (by decide)).2.2⟩

section PercentileLemmas

/-- Some sample point lies at or below the interpolated percentile, for
any `q ∈ [0, 100]` and a non-empty sample. -/
theorem exists_le_percentile (a : List ℚ) (q : ℚ) (hne : a ≠ [])
    (hq0 : 0 ≤ q) (hq1 : q ≤ 100) :
    ∃ y ∈ a, y ≤ RiskManager.percentile a q := by
  have hsorted : (List.insertionSort (· ≤ ·) a).Sorted (· ≤ ·) :=
    List.sorted_insertionSort (· ≤ ·) a
  set xs := List.insertionSort (· ≤ ·) a with hxs
  have hperm : List.Perm xs a := List.perm_insertionSort (· ≤ ·) a
  have hm : 0 < xs.length := by
    rw [hperm.length_eq]
    exact List.length_pos.mpr hne
  set m := xs.length with hmdef
  set h := ((m : ℚ) - 1) * q / 100 with hhdef
  have hm1 : (0 : ℚ) ≤ (m : ℚ) - 1 := by
    have : (1 : ℚ) ≤ (m : ℚ) := by exact_mod_cast hm
    linarith
  have hh0 : 0 ≤ h := by
    rw [hhdef]
    positivity
  have hh1 : h ≤ (m : ℚ) - 1 := by
    rw [hhdef, div_le_iff (by norm_num : (0:ℚ) < 100)]
    nlinarith
  set i := (Int.floor h).toNat with hidef
  have hfl0 : 0 ≤ Int.floor h := Int.floor_nonneg.mpr hh0
  have hic : (i : ℚ) ≤ h := by
    have h1 : ((i : ℤ) : ℚ) ≤ h := by
      rw [hidef, Int.toNat_of_nonneg hfl0]
      exact Int.floor_le h
    exact_mod_cast h1
  have hflm : Int.floor h ≤ (m : ℤ) - 1 := by
    have : Int.floor h ≤ Int.floor ((m : ℚ) - 1) := Int.floor_le_floor hh1
    calc Int.floor h ≤ Int.floor ((m : ℚ) - 1) := this
      _ = (m : ℤ) - 1 := by
          rw [show ((m : ℚ) - 1) = (((m : ℤ) - 1 : ℤ) : ℚ) by push_cast; ring]
          exact Int.floor_intCast _
  have him : i < m := by
    have hle := Int.toNat_le_toNat hflm
    rw [hidef]
    omega
  have hlo_mem : xs.getD i 0 ∈ xs := by
    rw [List.getD_eq_getElem xs 0 him]
    exact List.getElem_mem him
  have hhead : xs.getD 0 0 ≤ xs.getD i 0 := by
    rw [List.getD_eq_getElem xs 0 him, List.getD_eq_getElem xs 0 hm]
    have := hsorted.rel_get_of_le
      (a := ⟨0, hm⟩) (b := ⟨i, him⟩) (Fin.mk_le_mk.mpr (Nat.zero_le i))
    simpa [List.get_eq_getElem] using this
  have hhilo : xs.getD i 0 ≤ xs.getD (i + 1) (xs.getD i 0) := by
    by_cases hcase : i + 1 < m
    · rw [List.getD_eq_getElem xs _ hcase, List.getD_eq_getElem xs 0 him]
      have := hsorted.rel_get_of_le
        (a := ⟨i, him⟩) (b := ⟨i + 1, hcase⟩)
        (Fin.mk_le_mk.mpr (Nat.le_succ i))
      simpa [List.get_eq_getElem] using this
    · rw [List.getD_eq_default xs (xs.getD i 0) (by omega)]
  refine ⟨xs.getD 0 0, ?_, ?_⟩
  · exact hperm.mem_iff.mp (by
      rw [List.getD_eq_getElem xs 0 hm]
      exact List.getElem_mem hm)
  · have hres : RiskManager.percentile a q =
        xs.getD i 0 + (h - (i : ℚ)) *
          (xs.getD (i + 1) (xs.getD i 0) - xs.getD i 0) := by
      rw [RiskManager.percentile]
    have : xs.getD i 0 ≤ xs.getD i 0 + (h - (i : ℚ)) *
        (xs.getD (i + 1) (xs.getD i 0) - xs.getD i 0) := by
      have hf : 0 ≤ h - (i : ℚ) := by linarith
      nlinarith [hhilo]
    rw [hres]
    linarith [hhead]

end PercentileLemmas

/-- C5: on any non-empty historical return sample and any confidence
level in (0,1), the historical CVaR of `calculate_cvar` is at most the
historical VaR of `calculate_var`. -/
theorem cvar_le_var (returns : List ℚ) (c : ℚ) (hne : returns ≠ [])
    (hc0 : 0 < c) (hc1 : c < 1) :
    RiskManager.calculateCvar returns c ≤ RiskManager.calculateVar returns c := by
  have hq0 : 0 ≤ (1 - c) * 100 := by nlinarith
  have hq1 : (1 - c) * 100 ≤ 100 := by nlinarith
  obtain ⟨y, hy, hyle⟩ := exists_le_percentile returns ((1 - c) * 100) hne hq0 hq1
  set var := RiskManager.calculateVar returns c with hvar
  have hvar_eq : var = RiskManager.percentile returns ((1 - c) * 100) := rfl
  set tail := returns.filter (fun x => x ≤ var) with htail
  have hmem : y ∈ tail := by
    rw [htail, List.mem_filter]
    exact ⟨hy, by rw [hvar_eq]; exact decide_eq_true hyle⟩
  have hlen : 0 < tail.length := List.length_pos.mpr (fun hnil => by
    rw [hnil] at hmem; cases hmem)
  have hbound : ∀ x ∈ tail, x ≤ var := by
    intro x hx
    rw [htail, List.mem_filter] at hx
    exact of_decide_eq_true hx.2
  have hsum : tail.sum ≤ (tail.length : ℚ) * var := by
    have := List.sum_le_card_nsmul tail var hbound
    simpa [nsmul_eq_mul] using this
  have hmean : tail.sum / (tail.length : ℚ) ≤ var := by
    rw [div_le_iff (by exact_mod_cast hlen)]
    linarith
  show (if 0 < tail.length then tail.sum / (tail.length : ℚ) else var) ≤ var
  rw [if_pos hlen]
  exact hmean

/-- Witness for C5 on a concrete four-point sample at 95% confidence. -/
theorem cvar_le_var_witness :
    RiskManager.calculateCvar [-1/10, 0, 1/10, 1/5] (19/20) ≤
      RiskManager.calculateVar [-1/10, 0, 1/10, 1/5] (19/20) :=
  cvar_le_var [-1/10, 0, 1/10, 1/5] (19/20) (by decide) (by norm_num)
    (by norm_num)

/-- C7 counterexample: with `k = 1` requested point and `mu = [0, 1]` the
generated grid is `[min mu] = [0]` — it does not span
`[min mu, max mu]`: even with a solver succeeding on every target, the
returned return values are `[0]`, which misses `max mu = 1`. -/
theorem efficient_frontier_spanning_counterexample :
    (OptimizerScipy.calculateEfficientFrontier (fun _ t => some t) [0, 1]
      [[1, 0], [0, 1]] 1).2 = [0] ∧
    OptimizerScipy.seriesMax [0, 1] = 1 ∧ (1 : ℝ) ∉ [(0 : ℝ)] := by
  refine ⟨?_, ?_, by norm_num⟩
  · simp [OptimizerScipy.calculateEfficientFrontier, OptimizerScipy.linspace,
      OptimizerScipy.seriesMin, OptimizerScipy.seriesMax]
  · simp [OptimizerScipy.seriesMax]

section FrontierLoop

/-- Loop invariant of the efficient-frontier accumulation: the collected
returns extend the accumulator by a subsequence of the targets, and risks
and returns stay in lockstep. -/
theorem frontier_loop (frontier : List (List ℝ) → ℝ → Option ℝ)
    (cov : List (List ℝ)) :
    ∀ (ts : List ℝ) (acc : List ℝ × List ℝ),
      ∃ sub : List ℝ, List.Sublist sub ts ∧
        (ts.foldl (fun acc t =>
          match frontier cov t with
          | some r => (acc.1 ++ [r], acc.2 ++ [t])
          | none => acc) acc).2 = acc.2 ++ sub ∧
        (ts.foldl (fun acc t =>
          match frontier cov t with
          | some r => (acc.1 ++ [r], acc.2 ++ [t])
          | none => acc) acc).1.length = acc.1.length + sub.length := by
  intro ts
  induction ts with
  | nil =>
    intro acc
    exact ⟨[], List.Sublist.refl [], by simp, by simp⟩
  | cons t ts ih =>
    intro acc
    rw [List.foldl_cons]
    cases hf : frontier cov t with
    | none =>
      obtain ⟨sub, hsub, h2, h1⟩ := ih acc
      refine ⟨sub, hsub.cons t, ?_, ?_⟩
      · simpa [hf] using h2
      · simpa [hf] using h1
    | some r =>
      obtain ⟨sub, hsub, h2, h1⟩ := ih (acc.1 ++ [r], acc.2 ++ [t])
      refine ⟨t :: sub, hsub.cons₂ t, ?_, ?_⟩
      · simp only [hf]
        rw [h2]
        simp
      · simp only [hf]
        rw [h1]
        simp
        omega

end FrontierLoop

/-- C7 (amended: an endpoint-spanning grid needs `k ≥ 2`; `np.linspace`
with `k = 1` produces only `[min mu]`): `calculate_efficient_frontier`
generates `k` equally spaced targets running from `min(mu)` to `max(mu)`,
skips every failed target without aborting, and returns two lists of
equal length at most `k` whose return values form a subsequence of the
target grid (hence each is a grid target, in grid order). -/
theorem efficient_frontier_contract
    (frontier : List (List ℝ) → ℝ → Option ℝ) (mu : List ℝ)
    (cov : List (List ℝ)) (k : ℕ) (hk : 2 ≤ k) (hne : mu ≠ []) :
    (OptimizerScipy.linspace (OptimizerScipy.seriesMin mu)
        (OptimizerScipy.seriesMax mu) k).length = k ∧
    (OptimizerScipy.linspace (OptimizerScipy.seriesMin mu)
        (OptimizerScipy.seriesMax mu) k).getD 0 0 =
      OptimizerScipy.seriesMin mu ∧
    (OptimizerScipy.linspace (OptimizerScipy.seriesMin mu)
        (OptimizerScipy.seriesMax mu) k).getD (k - 1) 0 =
      OptimizerScipy.seriesMax mu ∧
    (∀ j, j + 1 < k →
      (OptimizerScipy.linspace (OptimizerScipy.seriesMin mu)
          (OptimizerScipy.seriesMax mu) k).getD (j + 1) 0 -
        (OptimizerScipy.linspace (OptimizerScipy.seriesMin mu)
          (OptimizerScipy.seriesMax mu) k).getD j 0 =
      (OptimizerScipy.seriesMax mu - OptimizerScipy.seriesMin mu) /
        ((k : ℝ) - 1)) ∧
    (OptimizerScipy.calculateEfficientFrontier frontier mu cov k).1.length =
      (OptimizerScipy.calculateEfficientFrontier frontier mu cov k).2.length ∧
    (OptimizerScipy.calculateEfficientFrontier frontier mu cov k).2.length ≤ k ∧
    List.Sublist (OptimizerScipy.calculateEfficientFrontier frontier mu cov k).2
      (OptimizerScipy.linspace (OptimizerScipy.seriesMin mu)
        (OptimizerScipy.seriesMax mu) k) := by
  have hk0 : k ≠ 0 := by omega
  have hk1 : k ≠ 1 := by omega
  have hkr : ((k : ℝ) - 1) ≠ 0 := by
    have : (2 : ℝ) ≤ (k : ℝ) := by exact_mod_cast hk
    intro hcontra
    nlinarith
  set a := OptimizerScipy.seriesMin mu
  set b := OptimizerScipy.seriesMax mu
  have hunfold : OptimizerScipy.linspace a b k =
      List.ofFn (fun i : Fin k => a + (i : ℕ) * (b - a) / ((k : ℝ) - 1)) := by
    rw [OptimizerScipy.linspace, if_neg hk0, if_neg hk1]
  have hlen : (OptimizerScipy.linspace a b k).length = k := by
    rw [hunfold, List.length_ofFn]
  have hget : ∀ j, j < k →
      (OptimizerScipy.linspace a b k).getD j 0 =
        a + (j : ℝ) * (b - a) / ((k : ℝ) - 1) := by
    intro j hj
    have hjl : j < (OptimizerScipy.linspace a b k).length := by rw [hlen]; exact hj
    rw [List.getD_eq_getElem _ 0 hjl]
    simp only [hunfold, List.getElem_ofFn]
  obtain ⟨sub, hsub, h2, h1⟩ := frontier_loop frontier cov
    (OptimizerScipy.linspace a b k) ([], [])
  have hfront : OptimizerScipy.calculateEfficientFrontier frontier mu cov k =
      (OptimizerScipy.linspace a b k).foldl (fun acc t =>
        match frontier cov t with
        | some r => (acc.1 ++ [r], acc.2 ++ [t])
        | none => acc) ([], []) := rfl
  refine ⟨hlen, ?_, ?_, ?_, ?_, ?_, ?_⟩
  · rw [hget 0 (by omega)]
    simp
  · rw [hget (k - 1) (by omega)]
    have hcast : ((k - 1 : ℕ) : ℝ) = (k : ℝ) - 1 := by
      have : (1 : ℕ) ≤ k := by omega
      push_cast [this]
      ring
    rw [hcast]
    field_simp
  · intro j hj
    rw [hget (j + 1) (by omega), hget j (by omega)]
    push_cast
    ring
  · rw [hfront, h1, h2]
    simp
  · rw [hfront, h2]
    have := hsub.length_le
    simpa [hlen] using this
  · rw [hfront, h2]
    simpa using hsub

/-- Witness for C7's amended contract at `k = 2`, `mu = [0, 1]`, an
always-succeeding solver. -/
theorem efficient_frontier_contract_witness :
    (2 ≤ 2) ∧ ([(0 : ℝ), 1] ≠ ([] : List ℝ)) ∧
    (OptimizerScipy.calculateEfficientFrontier (fun _ t => some t) [0, 1]
        [[1, 0], [0, 1]] 2).1.length =
      (OptimizerScipy.calculateEfficientFrontier (fun _ t => some t) [0, 1]
        [[1, 0], [0, 1]] 2).2.length :=
  ⟨le_refl 2, by simp,
   (efficient_frontier_contract (fun _ t => some t) [0, 1] [[1, 0], [0, 1]] 2
     (le_refl 2) (by simp)).2.2.2.2.1⟩

section SignalLemmas

/-- Adding an elementwise-zero adjustment is the identity. -/
theorem zipWith_add_zero_map {f : ℝ → FV} :
    ∀ (base s : List ℝ), s.length = base.length →
      (∀ x ∈ s, f x = FV.num 0) →
      List.zipWith FV.add (base.map FV.num) (s.map f) = base.map FV.num := by
  intro base
  induction base with
  | nil => intro s _ _; simp
  | cons b bs ih =>
    intro s hlen hz
    cases s with
    | nil => simp at hlen
    | cons x xs =>
      simp only [List.map_cons, List.zipWith_cons_cons]
      rw [hz x (List.mem_cons_self x xs), FV.add_num_num, add_zero,
        ih xs (by simpa using hlen) (fun y hy => hz y (List.mem_cons_of_mem x hy))]

end SignalLemmas

/-- C2 counterexample: on a two-instrument return table whose first
instrument has mean return below the 0.01 floor, the all-zero-signal path
hands the solver a clipped expected-return vector different from the
traditional one, and the returned weights differ. -/
theorem signal_zero_counterexample :
    (SimpleEnhanced.optimizeWithSignals ⟨2/100, 252⟩
      (fun m _ => if FV.lt (m.headD (FV.num 0)) (FV.num (5/1000))
        then some [1, 0] else some [0, 1])
      [[0, 0], [1/1000, 1/1000]] (some [0, 0])).1 ≠
    (SimpleEnhanced.traditionalOptimization ⟨2/100, 252⟩
      (fun m _ => if FV.lt (m.headD (FV.num 0)) (FV.num (5/1000))
        then some [1, 0] else some [0, 1])
      [[0, 0], [1/1000, 1/1000]]).1 := by
  have hmean : SimpleEnhanced.annualMean ⟨2/100, 252⟩
      [[(0:ℝ), 0], [1/1000, 1/1000]] = [0, 63/250] := by
    simp [SimpleEnhanced.annualMean, SimpleEnhanced.seriesMean]
    norm_num
  have htrad : (SimpleEnhanced.traditionalOptimization ⟨2/100, 252⟩
      (fun m _ => if FV.lt (m.headD (FV.num 0)) (FV.num (5/1000))
        then some [1, 0] else some [0, 1])
      [[0, 0], [1/1000, 1/1000]]).1 = [1, 0] := by
    rw [SimpleEnhanced.traditionalOptimization, hmean,
      SimpleEnhanced.optimizePortfolio]
    norm_num
  have henh : (SimpleEnhanced.optimizeWithSignals ⟨2/100, 252⟩
      (fun m _ => if FV.lt (m.headD (FV.num 0)) (FV.num (5/1000))
        then some [1, 0] else some [0, 1])
      [[0, 0], [1/1000, 1/1000]] (some [0, 0])).1 = [0, 1] := by
    rw [SimpleEnhanced.optimizeWithSignals, hmean, SimpleEnhanced.seriesStd,
      if_neg (by norm_num), SimpleEnhanced.optimizePortfolio]
    norm_num
  rw [htrad, henh]
  simp

/-- C2 (amended: additionally requires at least two instruments, because
on a one-instrument table `base_expected_returns.std()` is NaN under
pandas `ddof=1` and the zero signal is multiplied into a NaN-poisoned
mean vector for the solver; and requires every annualized mean return to
be at least the 0.01 floor, because `optimize_with_signals` clips its
expected returns at 0.01 while `_traditional_optimization` does not):
with an all-zero composite signal the Signal-Enhanced Optimizer hands the
solver exactly the traditional inputs and returns the identical weight
vector. -/
theorem signal_zero_reduces_to_traditional
    (o : SimpleEnhanced.SimpleEnhancedOptimizer)
    (solver : List FV → List (List ℝ) → Option (List ℝ))
    (cols : List (List ℝ)) (s : List ℝ)
    (hs : s.length = cols.length)
    (htwo : 2 ≤ cols.length)
    (hz : ∀ x ∈ s, x = 0)
    (hfloor : ∀ x ∈ SimpleEnhanced.annualMean o cols, 1 / 100 ≤ x) :
    (SimpleEnhanced.optimizeWithSignals o solver cols (some s)).1 =
      (SimpleEnhanced.traditionalOptimization o solver cols).1 := by
  rw [SimpleEnhanced.optimizeWithSignals, SimpleEnhanced.seriesStd,
    if_neg (by rw [SimpleEnhanced.annualMean, List.length_map]; omega)]
  rw [zipWith_add_zero_map (SimpleEnhanced.annualMean o cols) s
    (by rw [hs, SimpleEnhanced.annualMean, List.length_map])
    (by intro x hx; rw [hz x hx]; simp)]
  rw [show ((SimpleEnhanced.annualMean o cols).map FV.num).map
      (fun x => if FV.lt x (FV.num (1/100)) then FV.num (1/100) else x) =
      (SimpleEnhanced.annualMean o cols).map FV.num from by
    rw [List.map_map]
    refine List.map_congr_left (fun x hx => ?_)
    show (if FV.lt (FV.num x) (FV.num (1/100)) then FV.num (1/100)
      else FV.num x) = FV.num x
    simp only [FV.lt_num_num]
    rw [if_neg (not_lt.mpr (hfloor x hx))]]
  rfl

/-- Witness for C2's amended equivalence at a two-instrument table. -/
theorem signal_zero_reduces_to_traditional_witness :
    ([(0:ℝ), 0].length = [[(1:ℝ)/10, 1/10], [2/10, 2/10]].length) ∧
    (2 ≤ ([[(1:ℝ)/10, 1/10], [2/10, 2/10]] : List (List ℝ)).length) ∧
    (SimpleEnhanced.optimizeWithSignals ⟨2/100, 252⟩
        (fun _ _ => some [1/2, 1/2]) [[(1:ℝ)/10, 1/10], [2/10, 2/10]]
        (some [0, 0])).1 =
      (SimpleEnhanced.traditionalOptimization ⟨2/100, 252⟩
        (fun _ _ => some [1/2, 1/2]) [[(1:ℝ)/10, 1/10], [2/10, 2/10]]).1 :=
  ⟨by simp, by simp,
   signal_zero_reduces_to_traditional ⟨2/100, 252⟩ (fun _ _ => some [1/2, 1/2])
     [[(1:ℝ)/10, 1/10], [2/10, 2/10]] [0, 0] (by simp) (by simp) (by simp)
     (by
       intro x hx
       simp [SimpleEnhanced.annualMean, SimpleEnhanced.seriesMean] at hx
       rcases hx with h | h <;> rw [h] <;> norm_num)⟩

section FallbackLemmas

namespace FV

@[simp] theorem nan_sub (a : FV) : sub nan a = nan := by cases a <;> rfl

theorem sub_ne_nan {a b : FV} (h : sub a b ≠ nan) : a ≠ nan := by
  intro hcontra
  rw [hcontra] at h
  exact h (nan_sub b)

/-- A NaN component poisons the whole dot product. -/
theorem dot_nan_of_getElem {x y : List FV} {i : ℕ} (hix : i < x.length)
    (hiy : i < y.length) (hnan : x.get ⟨i, hix⟩ = nan) : dot x y = nan := by
  apply lsum_eq_nan_of_mem
  have hiz : i < (List.zipWith mul x y).length := by
    rw [List.length_zipWith]
    omega
  have hmem := List.getElem_mem hiz
  rw [List.getElem_zipWith] at hmem
  rw [List.get_eq_getElem] at hnan
  rwa [hnan, nan_mul] at hmem

end FV

theorem sum_map_div (l : List ℝ) (s : ℝ) :
    (l.map (fun y => y / s)).sum = l.sum / s := by
  induction l with
  | nil => simp
  | cons a t ih => simp [ih, add_div]

theorem sum_neg_of_all_neg :
    ∀ l : List ℝ, l ≠ [] → (∀ x ∈ l, x < 0) → l.sum < 0 := by
  intro l
  induction l with
  | nil => intro h; exact absurd rfl h
  | cons a t ih =>
    intro _ hall
    rw [List.sum_cons]
    cases t with
    | nil => simpa using hall a (List.mem_cons_self a [])
    | cons b u =>
      have ht := ih (by simp) (fun x hx => hall x (List.mem_cons_of_mem a hx))
      have ha := hall a (List.mem_cons_self a _)
      linarith

theorem listMatInv_some_length {g m : List (List ℝ)}
    (h : listMatInv g = some m) : m.length = g.length := by
  rw [listMatInv] at h
  by_cases hc : (∀ r ∈ g, r.length = g.length) ∧ (toMat g).det ≠ 0
  · rw [if_pos hc] at h
    rw [← Option.some.inj h, List.length_ofFn]
  · rw [if_neg hc] at h
    cases h

theorem equalWeights_sum {n : ℕ} (hn : 1 ≤ n) :
    FV.lsum (OptimizerScipy.equalWeights n) = FV.num 1 := by
  rw [OptimizerScipy.equalWeights,
    show List.replicate n (FV.num ((n : ℝ)⁻¹)) =
      (List.replicate n ((n : ℝ)⁻¹)).map FV.num from by rw [List.map_replicate],
    FV.lsum_map_num, List.sum_replicate, nsmul_eq_mul]
  congr 1
  have hn0 : (n : ℝ) ≠ 0 := by
    have : (1 : ℝ) ≤ (n : ℝ) := by exact_mod_cast hn
    linarith
  field_simp

theorem equalWeights_mem {n : ℕ} {x : FV}
    (hx : x ∈ OptimizerScipy.equalWeights n) :
    ∃ a : ℝ, x = FV.num a ∧ 0 ≤ a := by
  rw [OptimizerScipy.equalWeights] at hx
  rw [List.eq_of_mem_replicate hx]
  exact ⟨(n : ℝ)⁻¹, rfl, by positivity⟩

/-- With a nonzero sum the normalize–clip pipeline stays finite:
it is the elementwise real computation. -/
theorem clippedCandidate_of_sum_ne_zero {v : List ℝ} (hs : v.sum ≠ 0) :
    OptimizerScipy.clippedCandidate v =
      (v.map (fun x => if x / v.sum < 0 then 0 else x / v.sum)).map FV.num := by
  rw [OptimizerScipy.clippedCandidate, OptimizerScipy.normalizedCandidate,
    List.map_map, List.map_map]
  apply List.map_congr_left
  intro x _
  simp only [Function.comp]
  rw [FV.div_num_num hs, apply_ite FV.num]
  simp only [FV.lt_num_num]

/-- The three possible shapes of the fallback candidate: a finite
nonnegative vector summing to one, the equal-weight vector, or a vector
carrying NaN (full-length). -/
theorem fallbackCandidate_classify (v : List ℝ) (n : ℕ) (hn : 1 ≤ n)
    (hvlen : v.length = n) :
    (∃ r : List ℝ, OptimizerScipy.fallbackCandidate v n = r.map FV.num ∧
      (∀ y ∈ r, 0 ≤ y) ∧ r.sum = 1) ∨
    OptimizerScipy.fallbackCandidate v n = OptimizerScipy.equalWeights n ∨
    (∃ i, ∃ h : i < (OptimizerScipy.fallbackCandidate v n).length,
      (OptimizerScipy.fallbackCandidate v n).length = n ∧
      (OptimizerScipy.fallbackCandidate v n).get ⟨i, h⟩ = FV.nan) := by
  by_cases hs : v.sum = 0
  · -- zero sum: the elementwise division produces IEEE specials
    by_cases hzero : (0 : ℝ) ∈ v
    · -- a 0/0 component: NaN enters the clipped vector, whose sum is NaN,
      -- so the `np.sum > 0` test fails and equal weights are used
      right; left
      have hnan : FV.nan ∈ OptimizerScipy.clippedCandidate v := by
        rw [OptimizerScipy.clippedCandidate, OptimizerScipy.normalizedCandidate,
          List.map_map]
        apply List.mem_map.mpr
        refine ⟨0, hzero, ?_⟩
        simp only [Function.comp]
        rw [hs, FV.div_zero_zero, if_neg (FV.nan_lt _)]
      rw [OptimizerScipy.fallbackCandidate,
        if_neg (by rw [FV.lsum_eq_nan_of_mem hnan]; exact FV.lt_nan _)]
    · -- no zero component: some positive component becomes +inf, the sum
      -- is +inf, renormalization divides it by itself: NaN
      right; right
      have hex : ∃ x ∈ v, 0 < x := by
        by_contra hcontra
        push_neg at hcontra
        have hneg : ∀ x ∈ v, x < 0 := by
          intro x hx
          rcases lt_or_eq_of_le (hcontra x hx) with h | h
          · exact h
          · exact absurd (h ▸ hx) hzero
        have hvne : v ≠ [] := by
          intro hnil
          rw [hnil, List.length_nil] at hvlen
          omega
        exact absurd hs (ne_of_lt (sum_neg_of_all_neg v hvne hneg))
      have hshape : ∀ x ∈ OptimizerScipy.clippedCandidate v,
          x = FV.inf ∨ ∃ a, x = FV.num a := by
        intro x hx
        rw [OptimizerScipy.clippedCandidate, OptimizerScipy.normalizedCandidate,
          List.map_map] at hx
        rcases List.mem_map.mp hx with ⟨y, hy, hyeq⟩
        simp only [Function.comp] at hyeq
        rw [hs] at hyeq
        rcases lt_trichotomy y 0 with hy0 | hy0 | hy0
        · rw [FV.div_num_zero_neg hy0, if_pos (by simp [FV.lt])] at hyeq
          exact Or.inr ⟨0, hyeq.symm⟩
        · exact absurd (hy0 ▸ hy) hzero
        · rw [FV.div_num_zero_pos hy0,
            if_neg (by simp [FV.lt])] at hyeq
          exact Or.inl hyeq.symm
      have hinfmem : FV.inf ∈ OptimizerScipy.clippedCandidate v := by
        rcases hex with ⟨x, hxv, hx0⟩
        rw [OptimizerScipy.clippedCandidate, OptimizerScipy.normalizedCandidate,
          List.map_map]
        apply List.mem_map.mpr
        refine ⟨x, hxv, ?_⟩
        simp only [Function.comp]
        rw [hs, FV.div_num_zero_pos hx0, if_neg (by simp [FV.lt])]
      have hsuminf : FV.lsum (OptimizerScipy.clippedCandidate v) = FV.inf :=
        FV.lsum_eq_inf _ hshape hinfmem
      have hpos : FV.lt (FV.num 0) (FV.lsum (OptimizerScipy.clippedCandidate v)) := by
        rw [hsuminf]
        simp [FV.lt]
      rw [OptimizerScipy.fallbackCandidate, if_pos hpos]
      -- the +inf entry divided by the +inf sum is NaN
      rcases List.mem_iff_getElem.mp hinfmem with ⟨i, hi, hieq⟩
      have hclen : (OptimizerScipy.clippedCandidate v).length = v.length := by
        rw [OptimizerScipy.clippedCandidate, OptimizerScipy.normalizedCandidate,
          List.map_map, List.length_map]
      refine ⟨i, ?_, ?_, ?_⟩
      · rwa [List.length_map]
      · rw [List.length_map, hclen, hvlen]
      · rw [List.get_eq_getElem, List.getElem_map, hieq, hsuminf,
          FV.div_inf_inf]
  · -- nonzero sum: everything finite
    have hc := clippedCandidate_of_sum_ne_zero hs
    set r := v.map (fun x => if x / v.sum < 0 then 0 else x / v.sum) with hr
    have hrpos : ∀ y ∈ r, 0 ≤ y := by
      intro y hy
      rcases List.mem_map.mp hy with ⟨x, _, hxeq⟩
      by_cases hneg : x / v.sum < 0
      · simp only [if_pos hneg] at hxeq
        rw [← hxeq]
      · simp only [if_neg hneg] at hxeq
        rw [← hxeq]
        exact le_of_not_lt hneg
    have hcsum : FV.lsum (OptimizerScipy.clippedCandidate v) = FV.num r.sum := by
      rw [hc, FV.lsum_map_num]
    by_cases hrs : 0 < r.sum
    · left
      refine ⟨r.map (fun y => y / r.sum), ?_, ?_, ?_⟩
      · rw [OptimizerScipy.fallbackCandidate,
          if_pos (by rw [hcsum]; exact hrs), hcsum, hc, List.map_map,
          List.map_map, List.map_map, hr, List.map_map]
        apply List.map_congr_left
        intro y _
        simp only [Function.comp]
        rw [FV.div_num_num (by rw [← hr]; exact ne_of_gt hrs)]
      · intro y hy
        rcases List.mem_map.mp hy with ⟨x, hx, hxeq⟩
        rw [← hxeq]
        exact div_nonneg (hrpos x hx) (le_of_lt hrs)
      · rw [sum_map_div, div_self (ne_of_gt hrs)]
    · right; left
      rw [OptimizerScipy.fallbackCandidate,
        if_neg (by rw [hcsum]; simpa [FV.lt] using hrs)]

end FallbackLemmas

/-- C3 (amended: the invariant is enforced nowhere on the primary path —
a successful primary solve is returned exactly as the solver produced it,
`_validate_optimization_result` only warning on weight-sum or negativity
violations — and holds unconditionally for fallback results): the
fallback's weight vector sums to exactly 1 with nonnegative finite
components (hence `|Σw − 1| ≤ 1e-6` and `wᵢ ≥ −1e-6`), while a
successful primary solve with non-NaN Sharpe is passed through
unmodified. -/
theorem maximize_sharpe_weight_invariant (rf : ℝ) (mu : List ℝ)
    (cov : List (List ℝ)) (hn : 1 ≤ mu.length)
    (hdim : cov.length = mu.length) :
    (FV.lsum (OptimizerScipy.solveWithAlternativeMethod rf mu cov).1 =
        FV.num 1 ∧
      ∀ x ∈ (OptimizerScipy.solveWithAlternativeMethod rf mu cov).1,
        ∃ a : ℝ, x = FV.num a ∧ 0 ≤ a) ∧
    ∀ w : List ℝ, OptimizerScipy.primarySharpe rf mu cov w ≠ FV.nan →
      OptimizerScipy.maximizeSharpeRatio rf mu cov (some w) =
        Except.ok (w.map FV.num, OptimizerScipy.primarySharpe rf mu cov w) := by
  constructor
  · rw [OptimizerScipy.solveWithAlternativeMethod]
    cases hinv : listMatInv cov with
    | none =>
      exact ⟨equalWeights_sum hn, fun x hx => equalWeights_mem hx⟩
    | some inv =>
      have hvlen : (OptimizerScipy.tangencyRaw rf mu inv).length = mu.length := by
        rw [OptimizerScipy.tangencyRaw, matVecR, List.length_map,
          listMatInv_some_length hinv, hdim]
      rcases fallbackCandidate_classify (OptimizerScipy.tangencyRaw rf mu inv)
          mu.length hn hvlen with ⟨r, hw, hpos, hsum⟩ | hw | ⟨i, hi, hlen, hnan⟩
      · simp only []
        split
        · constructor
          · rw [hw, FV.lsum_map_num, hsum]
          · intro x hx
            rw [hw] at hx
            rcases List.mem_map.mp hx with ⟨a, ha, haeq⟩
            exact ⟨a, haeq.symm, hpos a ha⟩
        · exact ⟨equalWeights_sum hn, fun x hx => equalWeights_mem hx⟩
      · simp only []
        split
        · rw [hw]
          exact ⟨equalWeights_sum hn, fun x hx => equalWeights_mem hx⟩
        · exact ⟨equalWeights_sum hn, fun x hx => equalWeights_mem hx⟩
      · have hnan_sharpe : OptimizerScipy.sharpeOf rf mu cov
            (OptimizerScipy.fallbackCandidate
              (OptimizerScipy.tangencyRaw rf mu inv) mu.length) = FV.nan := by
          rw [OptimizerScipy.sharpeOf,
            FV.dot_nan_of_getElem hi (by rw [List.length_map]; omega) hnan,
            FV.nan_sub, FV.nan_div]
        simp only []
        rw [if_neg (by rw [hnan_sharpe]; exact FV.lt_nan _)]
        exact ⟨equalWeights_sum hn, fun x hx => equalWeights_mem hx⟩
  · intro w hw
    rw [OptimizerScipy.maximizeSharpeRatio, if_neg (by omega),
      if_neg (by omega), if_neg (by omega)]
    simp only []
    rw [if_neg hw]

/-- Witness for C3's amended invariant at `mu = [0.1]`, `cov = [[1]]`. -/
theorem maximize_sharpe_weight_invariant_witness :
    (1 ≤ [(1:ℝ)/10].length) ∧
    FV.lsum (OptimizerScipy.solveWithAlternativeMethod (2/100) [1/10] [[1]]).1 =
      FV.num 1 :=
  ⟨by simp,
   (maximize_sharpe_weight_invariant (2/100) [1/10] [[(1:ℝ)]] (by simp)
     (by simp)).1.1⟩

/-- C3 counterexample: on the valid non-empty inputs `mu = [0.1, 0.2]`
with identity covariance, a primary solve reporting success with weights
`[0.7, 0.7]` is returned unchanged: the returned weight vector sums to
1.4, violating `Σw = 1 ± 1e-6` — the code only logs a warning. -/
theorem maximize_sharpe_weight_counterexample :
    (OptimizerScipy.maximizeSharpeRatio (2/100) [1/10, 2/10]
        [[1, 0], [0, 1]] (some [7/10, 7/10])).toOption.map
      (fun p => FV.lsum p.1) = some (FV.num (7/5)) := by
  have hq : dotR [7/10, 7/10]
      (matVecR [[1, 0], [0, 1]] [7/10, 7/10]) = (49 : ℝ)/50 := by
    rw [matVecR]
    norm_num [dotR]
  have hns : OptimizerScipy.primarySharpe (2/100) [1/10, 2/10]
      [[1, 0], [0, 1]] [7/10, 7/10] ≠ FV.nan := by
    rw [OptimizerScipy.primarySharpe, hq,
      FV.sqrt_num_of_nonneg (by norm_num : (0:ℝ) ≤ 49/50),
      FV.sub_num_num,
      FV.div_num_num (by rw [Real.sqrt_ne_zero']; norm_num)]
    exact FV.num_ne_nan _
  rw [OptimizerScipy.maximizeSharpeRatio, if_neg (by norm_num),
    if_neg (by norm_num), if_neg (by norm_num)]
  simp only []
  rw [if_neg hns]
  rw [Except.toOption]
  rw [Option.map]
  congr 1
  rw [List.map_cons, List.map_cons, List.map_nil, FV.lsum_cons, FV.lsum_cons,
    FV.lsum_nil, FV.add_num_num, FV.add_num_num]
  norm_num

/-- C4 (amended: the call never raises on NaN — a NaN Sharpe computed
from the primary solver's weights triggers the fallback instead of being
returned, so a primary result with NaN Sharpe is never surfaced; but the
fallback result is returned WITHOUT validation and can itself carry a NaN
Sharpe ratio, as the counterexample shows). -/
theorem nan_sharpe_amended (rf : ℝ) (mu : List ℝ) (cov : List (List ℝ))
    (w : List ℝ) (hn : 1 ≤ mu.length) (hdim : cov.length = mu.length) :
    (OptimizerScipy.primarySharpe rf mu cov w = FV.nan →
      OptimizerScipy.maximizeSharpeRatio rf mu cov (some w) =
        Except.ok (OptimizerScipy.solveWithAlternativeMethod rf mu cov)) ∧
    (OptimizerScipy.primarySharpe rf mu cov w ≠ FV.nan →
      OptimizerScipy.maximizeSharpeRatio rf mu cov (some w) =
        Except.ok (w.map FV.num, OptimizerScipy.primarySharpe rf mu cov w)) := by
  constructor <;> intro hcond <;>
    rw [OptimizerScipy.maximizeSharpeRatio, if_neg (by omega),
      if_neg (by omega), if_neg (by omega)] <;> simp only []
  · rw [if_pos hcond]
  · rw [if_neg hcond]

/-- The equal-weight Sharpe of `mu = [0.02, 0.02]`,
`cov = [[1,-1],[-1,1]]` at `rf = 0.02` is `0/0 = NaN`. -/
theorem equal_sharpe_nan_example :
    OptimizerScipy.sharpeOf (2/100) [2/100, 2/100] [[1, -1], [-1, 1]]
      (OptimizerScipy.equalWeights 2) = FV.nan := by
  have hequal : OptimizerScipy.equalWeights 2 =
      [FV.num (2⁻¹ : ℝ), FV.num (2⁻¹ : ℝ)] := by
    rw [OptimizerScipy.equalWeights]
    norm_num [List.replicate]
  rw [OptimizerScipy.sharpeOf, hequal]
  have hdot : FV.dot [FV.num (2⁻¹ : ℝ), FV.num (2⁻¹ : ℝ)]
      (([(2:ℝ)/100, 2/100]).map FV.num) = FV.num (2/100) := by
    simp [FV.dot]
    norm_num
  have hquad : quadFormFV [[1, -1], [-1, 1]]
      [FV.num (2⁻¹ : ℝ), FV.num (2⁻¹ : ℝ)] = FV.num 0 := by
    simp [quadFormFV, FV.dot]
  rw [hdot, hquad, FV.sub_num_num,
    FV.sqrt_num_of_nonneg (le_refl (0:ℝ)), Real.sqrt_zero]
  norm_num

/-- The covariance `[[1,-1],[-1,1]]` is singular, so `np.linalg.inv`
raises and the analytic fallback branch is skipped. -/
theorem singular_cov_inv_none :
    listMatInv ([[1, -1], [-1, 1]] : List (List ℝ)) = none := by
  rw [listMatInv, if_neg]
  rintro ⟨-, hdet⟩
  apply hdet
  have : toMat ([[1, -1], [-1, 1]] : List (List ℝ)) =
      Matrix.of ![![1, -1], ![-1, 1]] := by
    ext i j
    fin_cases i <;> fin_cases j <;> simp [toMat]
  rw [this, Matrix.det_fin_two_of]
  norm_num

/-- C4 counterexample: on the valid symmetric positive-semidefinite
inputs `mu = [0.02, 0.02]`, `cov = [[1,-1],[-1,1]]` with a failing
primary solve, `maximize_sharpe_ratio` RETURNS the pair
`(equal weights, NaN)` instead of raising: the equal-weight Sharpe is
`0/0` (zero excess return over zero volatility), the singular covariance
makes the analytic branch fail, and the fallback result is returned
without any NaN validation. -/
theorem nan_sharpe_returned_counterexample :
    OptimizerScipy.maximizeSharpeRatio (2/100) [2/100, 2/100]
        [[1, -1], [-1, 1]] none =
      Except.ok (OptimizerScipy.equalWeights 2, FV.nan) := by
  rw [OptimizerScipy.maximizeSharpeRatio, if_neg (by norm_num),
    if_neg (by norm_num), if_neg (by norm_num)]
  rw [OptimizerScipy.solveWithAlternativeMethod, singular_cov_inv_none]
  have h2 : OptimizerScipy.sharpeOf (2/100) [2/100, 2/100] [[1, -1], [-1, 1]]
      (OptimizerScipy.equalWeights ([(2:ℝ)/100, 2/100]).length) = FV.nan :=
    equal_sharpe_nan_example
  rw [h2]
  rfl

/-- Witness for C4's amended behaviour: at the same inputs, the primary
Sharpe of weights `[1/2, 1/2]` is NaN and the call answers with the
(unvalidated) fallback result. -/
theorem nan_sharpe_amended_witness :
    OptimizerScipy.primarySharpe (2/100) [2/100, 2/100] [[1, -1], [-1, 1]]
      [1/2, 1/2] = FV.nan ∧
    OptimizerScipy.maximizeSharpeRatio (2/100) [2/100, 2/100]
        [[1, -1], [-1, 1]] (some [1/2, 1/2]) =
      Except.ok (OptimizerScipy.solveWithAlternativeMethod (2/100)
        [2/100, 2/100] [[1, -1], [-1, 1]]) := by
  have hps : OptimizerScipy.primarySharpe (2/100) [2/100, 2/100]
      [[1, -1], [-1, 1]] [1/2, 1/2] = FV.nan := by
    have hq : dotR [1/2, 1/2]
        (matVecR [[1, -1], [-1, 1]] [1/2, 1/2]) = (0 : ℝ) := by
      rw [matVecR]
      norm_num [dotR]
    rw [OptimizerScipy.primarySharpe, hq,
      FV.sqrt_num_of_nonneg (le_refl (0:ℝ)), Real.sqrt_zero, FV.sub_num_num]
    norm_num [dotR]
  exact ⟨hps,
    (nan_sharpe_amended (2/100) [2/100, 2/100] [[1, -1], [-1, 1]] [1/2, 1/2]
      (by norm_num) (by norm_num)).1 hps⟩

section AmendedFallbackLemmas

theorem fallback_select_eq (r : List ℝ) (n : ℕ) :
    (if FV.lt (FV.num 0) (FV.lsum (r.map FV.num))
     then (r.map FV.num).map (fun x => FV.div x (FV.lsum (r.map FV.num)))
     else OptimizerScipy.equalWeights n) =
      if 0 < r.sum then (r.map (fun y => y / r.sum)).map FV.num
      else OptimizerScipy.equalWeights n := by
  rw [FV.lsum_map_num]
  by_cases hrs : 0 < r.sum
  · rw [if_pos (show FV.lt (FV.num 0) (FV.num r.sum) from hrs), if_pos hrs,
      List.map_map, List.map_map]
    apply List.map_congr_left
    intro y _
    simp only [Function.comp]
    rw [FV.div_num_num (ne_of_gt hrs)]
  · rw [if_neg (show ¬ FV.lt (FV.num 0) (FV.num r.sum) from hrs),
      if_neg hrs]

theorem fallbackCandidate_eq_of_sum_ne_zero {v : List ℝ} (hs : v.sum ≠ 0)
    (n : ℕ) :
    OptimizerScipy.fallbackCandidate v n =
      if 0 < (v.map (fun x => if x / v.sum < 0 then 0 else x / v.sum)).sum
      then ((v.map (fun x => if x / v.sum < 0 then 0 else x / v.sum)).map
        (fun y => y /
          (v.map (fun x => if x / v.sum < 0 then 0 else x / v.sum)).sum)).map
        FV.num
      else OptimizerScipy.equalWeights n := by
  rw [OptimizerScipy.fallbackCandidate, clippedCandidate_of_sum_ne_zero hs]
  exact fallback_select_eq _ n

theorem fallbackCandidate_of_zero_mem {v : List ℝ} (hs : v.sum = 0)
    (hzero : (0 : ℝ) ∈ v) (n : ℕ) :
    OptimizerScipy.fallbackCandidate v n = OptimizerScipy.equalWeights n := by
  have hnan : FV.nan ∈ OptimizerScipy.clippedCandidate v := by
    rw [OptimizerScipy.clippedCandidate, OptimizerScipy.normalizedCandidate,
      List.map_map]
    apply List.mem_map.mpr
    refine ⟨0, hzero, ?_⟩
    simp only [Function.comp]
    rw [hs, FV.div_zero_zero, if_neg (FV.nan_lt _)]
  rw [OptimizerScipy.fallbackCandidate,
    if_neg (by rw [FV.lsum_eq_nan_of_mem hnan]; exact FV.lt_nan _)]

theorem fallbackCandidate_nan_of_no_zero {v : List ℝ} (hs : v.sum = 0)
    (hzero : (0 : ℝ) ∉ v) (hvne : v ≠ []) (n : ℕ) :
    ∃ i, ∃ h : i < (OptimizerScipy.fallbackCandidate v n).length,
      (OptimizerScipy.fallbackCandidate v n).length = v.length ∧
      (OptimizerScipy.fallbackCandidate v n).get ⟨i, h⟩ = FV.nan := by
  have hex : ∃ x ∈ v, 0 < x := by
    by_contra hcontra
    push_neg at hcontra
    have hneg : ∀ x ∈ v, x < 0 := by
      intro x hx
      rcases lt_or_eq_of_le (hcontra x hx) with h | h
      · exact h
      · exact absurd (h ▸ hx) hzero
    exact absurd hs (ne_of_lt (sum_neg_of_all_neg v hvne hneg))
  have hshape : ∀ x ∈ OptimizerScipy.clippedCandidate v,
      x = FV.inf ∨ ∃ a, x = FV.num a := by
    intro x hx
    rw [OptimizerScipy.clippedCandidate, OptimizerScipy.normalizedCandidate,
      List.map_map] at hx
    rcases List.mem_map.mp hx with ⟨y, hy, hyeq⟩
    simp only [Function.comp] at hyeq
    rw [hs] at hyeq
    rcases lt_trichotomy y 0 with hy0 | hy0 | hy0
    · rw [FV.div_num_zero_neg hy0, if_pos (by simp [FV.lt])] at hyeq
      exact Or.inr ⟨0, hyeq.symm⟩
    · exact absurd (hy0 ▸ hy) hzero
    · rw [FV.div_num_zero_pos hy0, if_neg (by simp [FV.lt])] at hyeq
      exact Or.inl hyeq.symm
  have hinfmem : FV.inf ∈ OptimizerScipy.clippedCandidate v := by
    rcases hex with ⟨x, hxv, hx0⟩
    rw [OptimizerScipy.clippedCandidate, OptimizerScipy.normalizedCandidate,
      List.map_map]
    apply List.mem_map.mpr
    refine ⟨x, hxv, ?_⟩
    simp only [Function.comp]
    rw [hs, FV.div_num_zero_pos hx0, if_neg (by simp [FV.lt])]
  have hsuminf : FV.lsum (OptimizerScipy.clippedCandidate v) = FV.inf :=
    FV.lsum_eq_inf _ hshape hinfmem
  have hpos : FV.lt (FV.num 0) (FV.lsum (OptimizerScipy.clippedCandidate v)) := by
    rw [hsuminf]
    simp [FV.lt]
  rw [OptimizerScipy.fallbackCandidate, if_pos hpos]
  rcases List.mem_iff_getElem.mp hinfmem with ⟨i, hi, hieq⟩
  have hclen : (OptimizerScipy.clippedCandidate v).length = v.length := by
    rw [OptimizerScipy.clippedCandidate, OptimizerScipy.normalizedCandidate,
      List.map_map, List.length_map]
  refine ⟨i, ?_, ?_, ?_⟩
  · rwa [List.length_map]
  · rw [List.length_map, hclen]
  · rw [List.get_eq_getElem, List.getElem_map, hieq, hsuminf, FV.div_inf_inf]

theorem amendedTangency_eq (rf : ℝ) (mu : List ℝ) (cov : List (List ℝ))
    (inv : List (List ℝ)) (hinv : listMatInv cov = some inv)
    (hs : (OptimizerScipy.tangencyRaw rf mu inv).sum ≠ 0) :
    ClaimSide.amendedTangency rf mu cov =
      OptimizerScipy.fallbackCandidate (OptimizerScipy.tangencyRaw rf mu inv)
        mu.length := by
  rw [ClaimSide.amendedTangency, hinv]
  rw [fallbackCandidate_eq_of_sum_ne_zero hs]
  simp only [List.map_map, Function.comp_def]

theorem amendedTangency_eq_equal (rf : ℝ) (mu : List ℝ)
    (cov : List (List ℝ)) (inv : List (List ℝ))
    (hinv : listMatInv cov = some inv)
    (hs : (OptimizerScipy.tangencyRaw rf mu inv).sum = 0) :
    ClaimSide.amendedTangency rf mu cov =
      OptimizerScipy.equalWeights mu.length := by
  rw [ClaimSide.amendedTangency, hinv]
  simp only []
  rw [if_neg]
  intro hcontra
  have hzero : (((OptimizerScipy.tangencyRaw rf mu inv).map
      (fun x => x / (OptimizerScipy.tangencyRaw rf mu inv).sum)).map
      (fun x => if x < 0 then 0 else x)).sum = 0 := by
    apply List.sum_eq_zero
    intro x hx
    rw [List.map_map] at hx
    rcases List.mem_map.mp hx with ⟨y, _, hyeq⟩
    simp only [Function.comp] at hyeq
    rw [hs, div_zero] at hyeq
    rw [← hyeq]
    simp
  rw [hzero] at hcontra
  exact lt_irrefl 0 hcontra

end AmendedFallbackLemmas

/-- C1 (amended: the code normalizes the analytic direction
`Sigma⁻¹(mu − r_f)` by its — possibly negative — sum BEFORE clipping at
zero, so when that sum is negative the surviving components are those
where the direction is nonpositive, not those where it is nonnegative as
the claim stated): the fallback always returns exactly the amended
formulation — candidate (a') = normalize-by-sum, clip at zero,
renormalize (equal weights if the clipped sum is not positive or the
inversion fails), returned together with its Sharpe exactly when that
Sharpe strictly exceeds the equal-weight Sharpe, otherwise the
equal-weight result. -/
theorem fallback_amended (rf : ℝ) (mu : List ℝ) (cov : List (List ℝ))
    (hn : 1 ≤ mu.length) (hdim : cov.length = mu.length) :
    OptimizerScipy.solveWithAlternativeMethod rf mu cov =
      ClaimSide.amendedFallback rf mu cov := by
  rw [OptimizerScipy.solveWithAlternativeMethod, ClaimSide.amendedFallback]
  cases hinv : listMatInv cov with
  | none =>
    simp only []
    rw [show ClaimSide.amendedTangency rf mu cov =
        OptimizerScipy.equalWeights mu.length from by
      rw [ClaimSide.amendedTangency, hinv]]
    rw [if_neg (FV.lt_irrefl _)]
  | some inv =>
    simp only []
    have hvlen : (OptimizerScipy.tangencyRaw rf mu inv).length = mu.length := by
      rw [OptimizerScipy.tangencyRaw, matVecR, List.length_map,
        listMatInv_some_length hinv, hdim]
    by_cases hs : (OptimizerScipy.tangencyRaw rf mu inv).sum = 0
    · rw [amendedTangency_eq_equal rf mu cov inv hinv hs,
        if_neg (FV.lt_irrefl _)]
      by_cases hzero : (0 : ℝ) ∈ OptimizerScipy.tangencyRaw rf mu inv
      · rw [fallbackCandidate_of_zero_mem hs hzero mu.length,
          if_neg (FV.lt_irrefl _)]
      · have hvne : OptimizerScipy.tangencyRaw rf mu inv ≠ [] := by
          intro hnil
          rw [hnil, List.length_nil] at hvlen
          omega
        obtain ⟨i, hi, hlen, hnan⟩ :=
          fallbackCandidate_nan_of_no_zero hs hzero hvne mu.length
        have hsU : OptimizerScipy.sharpeOf rf mu cov
            (OptimizerScipy.fallbackCandidate
              (OptimizerScipy.tangencyRaw rf mu inv) mu.length) = FV.nan := by
          rw [OptimizerScipy.sharpeOf,
            FV.dot_nan_of_getElem hi (by rw [List.length_map]; omega) hnan,
            FV.nan_sub, FV.nan_div]
        rw [if_neg (by rw [hsU]; exact FV.lt_nan _)]
    · rw [amendedTangency_eq rf mu cov inv hinv hs]

/-- Witness for C1's amended equivalence at `mu = [0.1]`, `cov = [[1]]`. -/
theorem fallback_amended_witness :
    (1 ≤ [(1:ℝ)/10].length) ∧
    OptimizerScipy.solveWithAlternativeMethod (2/100) [1/10] [[(1:ℝ)]] =
      ClaimSide.amendedFallback (2/100) [1/10] [[(1:ℝ)]] :=
  ⟨by simp, fallback_amended (2/100) [1/10] [[(1:ℝ)]] (by simp) (by simp)⟩

section ClipCounterexampleEval

theorem toMat_id2 : toMat ([[1, 0], [0, 1]] : List (List ℝ)) = 1 := by
  ext i j
  fin_cases i <;> fin_cases j <;>
    simp [toMat, Matrix.one_apply, List.getD] <;> norm_num

theorem listMatInv_id2 :
    listMatInv ([[1, 0], [0, 1]] : List (List ℝ)) =
      some [[1, 0], [0, 1]] := by
  have hrows : ∀ r ∈ ([[1, 0], [0, 1]] : List (List ℝ)),
      r.length = ([[1, 0], [0, 1]] : List (List ℝ)).length := by
    intro r hr
    fin_cases hr <;> rfl
  have hdet : (toMat ([[1, 0], [0, 1]] : List (List ℝ))).det ≠ 0 := by
    rw [toMat_id2, Matrix.det_one]
    norm_num
  rw [listMatInv, if_pos ⟨hrows, hdet⟩]
  congr 1
  rw [toMat_id2, inv_one]
  simp [List.ofFn_succ, Matrix.one_apply, Fin.ext_iff]

theorem tangencyRaw_eval :
    OptimizerScipy.tangencyRaw (1/50) [51/50, -149/50] [[1, 0], [0, 1]] =
      [1, -3] := by
  rw [OptimizerScipy.tangencyRaw, matVecR]
  simp [dotR]
  try norm_num

end ClipCounterexampleEval

/-- C1 counterexample: at `rf = 0.02`, `mu = [1.02, -2.98]` and the
identity covariance, the analytic direction `Sigma⁻¹(mu − rf) = [1, -3]`
has negative sum −2; the code normalizes by that sum FIRST (flipping
signs) and then clips, keeping the equal-weight portfolio, while the
claim's clip-then-renormalize recipe prescribes the weights `[1, 0]`
(whose Sharpe 1 beats the equal-weight Sharpe −√2): the fallback's
returned weights differ from the claim's. -/
theorem fallback_clip_counterexample :
    (OptimizerScipy.solveWithAlternativeMethod (1/50) [51/50, -149/50]
      [[1, 0], [0, 1]]).1 = [FV.num (2⁻¹ : ℝ), FV.num (2⁻¹ : ℝ)] ∧
    (ClaimSide.claimFallback (1/50) [51/50, -149/50] [[1, 0], [0, 1]]).1 =
      [FV.num 1, FV.num 0] ∧
    ([FV.num (2⁻¹ : ℝ), FV.num (2⁻¹ : ℝ)] : List FV) ≠
      [FV.num 1, FV.num 0] := by
  have hequal : OptimizerScipy.equalWeights
      ([(51:ℝ)/50, -149/50]).length = [FV.num (2⁻¹ : ℝ), FV.num (2⁻¹ : ℝ)] := by
    rw [OptimizerScipy.equalWeights]
    norm_num [List.replicate]
  have hsp : 0 < Real.sqrt (1/2) := Real.sqrt_pos.mpr (by norm_num)
  have h3 : (1:ℝ)/3 ≤ Real.sqrt (1/2) := by
    rw [Real.le_sqrt (by norm_num) (by norm_num)]
    norm_num
  have hsE : OptimizerScipy.sharpeOf (1/50) [51/50, -149/50] [[1, 0], [0, 1]]
      [FV.num (2⁻¹ : ℝ), FV.num (2⁻¹ : ℝ)] = FV.num (-1 / Real.sqrt (1/2)) := by
    have hd : FV.dot [FV.num (2⁻¹ : ℝ), FV.num (2⁻¹ : ℝ)]
        (([(51:ℝ)/50, -149/50]).map FV.num) = FV.num (-49/50) := by
      simp [FV.dot]
      try norm_num
    have hq : quadFormFV [[1, 0], [0, 1]]
        [FV.num (2⁻¹ : ℝ), FV.num (2⁻¹ : ℝ)] = FV.num (1/2) := by
      simp [quadFormFV, FV.dot]
      try norm_num
    rw [OptimizerScipy.sharpeOf, hd, hq, FV.sub_num_num,
      FV.sqrt_num_of_nonneg (by norm_num : (0:ℝ) ≤ 1/2),
      FV.div_num_num (ne_of_gt hsp)]
    norm_num
  refine ⟨?_, ?_, by simp only [ne_eq, List.cons.injEq, FV.num.injEq]; norm_num⟩
  · -- code side: the fallback keeps the equal weights
    have hfc : OptimizerScipy.fallbackCandidate [(1:ℝ), -3]
        ([(51:ℝ)/50, -149/50]).length = [FV.num 0, FV.num 1] := by
      rw [fallbackCandidate_eq_of_sum_ne_zero (by norm_num)]
      norm_num
    have hsU : OptimizerScipy.sharpeOf (1/50) [51/50, -149/50]
        [[1, 0], [0, 1]] [FV.num 0, FV.num 1] = FV.num (-3) := by
      have hd : FV.dot [FV.num (0 : ℝ), FV.num 1]
          (([(51:ℝ)/50, -149/50]).map FV.num) = FV.num (-149/50) := by
        simp [FV.dot]
        try norm_num
      have hq : quadFormFV [[1, 0], [0, 1]] [FV.num (0 : ℝ), FV.num 1] =
          FV.num 1 := by
        simp [quadFormFV, FV.dot]
        try norm_num
      rw [OptimizerScipy.sharpeOf, hd, hq, FV.sub_num_num,
        FV.sqrt_num_of_nonneg (by norm_num : (0:ℝ) ≤ 1), Real.sqrt_one,
        FV.div_num_num one_ne_zero]
      norm_num
    rw [OptimizerScipy.solveWithAlternativeMethod, listMatInv_id2]
    simp only []
    rw [tangencyRaw_eval, hequal, hfc, hsU, hsE]
    rw [if_neg (by
      rw [FV.lt_num_num]
      push_neg
      have h13 : 1 / Real.sqrt (1/2) ≤ 3 := by
        rw [div_le_iff hsp]
        linarith
      have : -3 ≤ -1 / Real.sqrt (1/2) := by
        rw [neg_div]
        linarith
      exact this)]
  · -- claim side: clip first, then renormalize — picks [1, 0]
    have hcT : ClaimSide.claimTangency (1/50) [51/50, -149/50]
        [[1, 0], [0, 1]] = [FV.num 1, FV.num 0] := by
      rw [ClaimSide.claimTangency, listMatInv_id2]
      simp only []
      rw [tangencyRaw_eval]
      norm_num
    have hsA : OptimizerScipy.sharpeOf (1/50) [51/50, -149/50]
        [[1, 0], [0, 1]] [FV.num 1, FV.num 0] = FV.num 1 := by
      have hd : FV.dot [FV.num (1 : ℝ), FV.num 0]
          (([(51:ℝ)/50, -149/50]).map FV.num) = FV.num (51/50) := by
        simp [FV.dot]
        try norm_num
      have hq : quadFormFV [[1, 0], [0, 1]] [FV.num (1 : ℝ), FV.num 0] =
          FV.num 1 := by
        simp [quadFormFV, FV.dot]
        try norm_num
      rw [OptimizerScipy.sharpeOf, hd, hq, FV.sub_num_num,
        FV.sqrt_num_of_nonneg (by norm_num : (0:ℝ) ≤ 1), Real.sqrt_one,
        FV.div_num_num one_ne_zero]
      norm_num
    rw [ClaimSide.claimFallback]
    rw [hcT, hsA, hequal, hsE]
    rw [if_pos (by
      rw [FV.lt_num_num]
      have : -1 / Real.sqrt (1/2) < 0 := by
        rw [neg_div]
        have : 0 < 1 / Real.sqrt (1/2) := by positivity
        linarith
      linarith)]
